import Mathlib

/-!
# Macaulay2 `e/dpoly.hpp`: the tower-arithmetic engine `DPoly` and its field adapter `DRing`

`dpoly.hpp` declares the class `DPoly` (arithmetic on polynomials over a tower of
extensions of a prime field) and defines, inline, the class `DRing`, which binds one
tower level and presents it as a field-like value type.

* Part 1 embeds the inline methods of `DRing`.  The member functions of `DPoly` that
  they call are only declared in the header, so they enter as the fields of a record.
* Part 2 models the `DPoly` operations that the header declares but does not define,
  following the natural-language specification, for a level over arbitrary scalars.
* Part 3 proves the properties of the modelled operations.
* Part 4 shows that the elements of a level are the scalars of the next level, which
  makes the model a tower of any height, and states the claims on the tower arithmetic.
* Part 5 fixes concrete towers and Part 6 proves the claims on the adapter.
-/

namespace M2

/-! ## Part 1: the adapter `DRing` (dpoly.hpp, lines 116-239) -/

/-- The type `poly` of dpoly.hpp, line 18: `typedef struct poly_struct * poly;`.
A value is a pointer; `none` is the null pointer `0`, `some s` points to the struct `s`. -/
abbrev poly (S : Type) : Type := Option S

/-- The member functions of `class DPoly` (dpoly.hpp, lines 77-105) whose results the
embedded `DRing` methods use.  The header only declares them.  A function that mutates its
`poly &f` argument returns the new value of `f`. -/
structure DPoly (S : Type) where
  /-- Declared as `static poly copy(int level, const_poly f)`. -/
  copy : Int → poly S → poly S
  /-- Declared as `static poly from_int(int level, long c)`, "c should be reduced mod p". -/
  from_int : Int → Int → poly S
  /-- Declared as `static bool is_one(int level, poly f)`. -/
  is_one : Int → poly S → Bool
  /-- Declared as `static bool is_equal(int level, const poly f, const poly g)`. -/
  is_equal : Int → poly S → poly S → Bool
  /-- Declared as `int compare(int level, const poly f, const poly g)`, "this is a total
  order". -/
  compare : Int → poly S → poly S → Int
  /-- Declared as `void add_in_place(int level, poly &f, const poly g)`. -/
  add_in_place : Int → poly S → poly S → poly S
  /-- Declared as `void subtract_in_place(int level, poly &f, const poly g)`. -/
  subtract_in_place : Int → poly S → poly S → poly S
  /-- Declared as `poly mult(int level, const poly f, const poly g, bool reduce_by_extension)`. -/
  mult : Int → poly S → poly S → Bool → poly S
  /-- Declared as `poly invert(int level, const poly a)`. -/
  invert : Int → poly S → poly S

/-- The inline member `static bool is_zero(poly f) { return f == 0; }` of `DPoly`
(dpoly.hpp, line 83). -/
def DPoly.is_zero {S : Type} (f : poly S) : Bool := f.isNone

/-- The `DPoly` member functions, as labels of the calls a `DRing` method makes. -/
inductive DCall where
  | copy | from_int | is_one | is_equal | compare | remove
  | add_in_place | subtract_in_place | mult | invert
  deriving DecidableEq, Repr

/-- What a `DRing` method leaves behind: the value it returns or stores through its
reference parameter, and the `DPoly` calls it made, in order. -/
structure Ret (α : Type) where
  val : α
  calls : List DCall

/-- The data members of `class DRing` (dpoly.hpp, lines 118-120):
`int level; mutable DPoly D; long P;`. -/
structure DRing (S : Type) where
  level : Int
  D : DPoly S
  P : Int

namespace DRing

variable {S : Type}

/-- The method `void init_set(elem &result, elem a) const { result = a; }`. -/
def init_set (_R : DRing S) (a : poly S) : Ret (poly S) := ⟨a, []⟩

/-- The method `void set_zero(elem &result) const { result = 0; }`. -/
def set_zero (_R : DRing S) : Ret (poly S) := ⟨none, []⟩

/-- The method `void set(elem &result, elem a) const`:
`D.remove(level, result); result = a;`. -/
def set (_R : DRing S) (_result a : poly S) : Ret (poly S) := ⟨a, [DCall.remove]⟩

/-- The method `bool is_zero(elem result) const { return result == 0; }`. -/
def is_zero (_R : DRing S) (result : poly S) : Bool := result.isNone

/-- The method `bool invert(elem &result, elem a) const`:
`result = D.invert(level, a); return result != 0;`.
The value is the pair (returned flag, stored `result`). -/
def invert (R : DRing S) (a : poly S) : Ret (Bool × poly S) :=
  let result := R.D.invert R.level a
  ⟨(!result.isNone, result), [DCall.invert]⟩

/-- The method `void add(elem &result, elem a, elem b) const`:
`if (a == 0) result = b; else if (b == 0) result = a;`
`else { poly a1 = D.copy(level, a); D.add_in_place(level, a1, b); result = a1; }`. -/
def add (R : DRing S) (a b : poly S) : Ret (poly S) :=
  if a.isNone then ⟨b, []⟩
  else if b.isNone then ⟨a, []⟩
  else
    let a1 := R.D.copy R.level a
    let a1 := R.D.add_in_place R.level a1 b
    ⟨a1, [DCall.copy, DCall.add_in_place]⟩

/-- The method `void subtract(elem &result, elem a, elem b) const`:
`poly a1 = D.copy(level, a); D.subtract_in_place(level, a1, b); result = a1;`. -/
def subtract (R : DRing S) (a b : poly S) : Ret (poly S) :=
  let a1 := R.D.copy R.level a
  let a1 := R.D.subtract_in_place R.level a1 b
  ⟨a1, [DCall.copy, DCall.subtract_in_place]⟩

/-- The method `void subtract_multiple(elem &result, elem a, elem b) const`:
`if (a == 0 || b == 0) return;`
`elem ab = D.mult(level,a,b,true); D.subtract_in_place(level, result, ab);`. -/
def subtract_multiple (R : DRing S) (result a b : poly S) : Ret (poly S) :=
  if a.isNone || b.isNone then ⟨result, []⟩
  else
    let ab := R.D.mult R.level a b true
    ⟨R.D.subtract_in_place R.level result ab, [DCall.mult, DCall.subtract_in_place]⟩

/-- The method `void mult(elem &result, elem a, elem b) const`:
`if (a == 0 || b == 0) result = 0; else result = D.mult(level, a, b, true);`. -/
def mult (R : DRing S) (a b : poly S) : Ret (poly S) :=
  if a.isNone || b.isNone then ⟨none, []⟩
  else ⟨R.D.mult R.level a b true, [DCall.mult]⟩

/-- The method `void divide(elem &result, elem a, elem b) const`:
`if (a == 0 || b == 0) result = 0; else { result = D.mult(level, a, b, true); }`. -/
def divide (R : DRing S) (a b : poly S) : Ret (poly S) :=
  if a.isNone || b.isNone then ⟨none, []⟩
  else ⟨R.D.mult R.level a b true, [DCall.mult]⟩

/-- The method `void swap(elem &a, elem &b) const`:
`elem tmp = a; a = b; b = tmp;`.  The value is the pair (new `a`, new `b`). -/
def swap (_R : DRing S) (a b : poly S) : Ret (poly S × poly S) :=
  let tmp := a
  let a := b
  let b := tmp
  ⟨(a, b), []⟩

/-- The method `bool is_one(const poly f) { return D.is_one(level, f); }`. -/
def is_one (R : DRing S) (f : poly S) : Ret Bool :=
  ⟨R.D.is_one R.level f, [DCall.is_one]⟩

/-- The method `bool is_equal(const poly f, const poly g)`:
`return D.is_equal(level, f, g);`. -/
def is_equal (R : DRing S) (f g : poly S) : Ret Bool :=
  ⟨R.D.is_equal R.level f g, [DCall.is_equal]⟩

/-- The method `bool compare(const poly f, const poly g)`:
`return D.compare(level, f, g);`.
The `int` that `DPoly::compare` returns is converted to the return type `bool`:
zero becomes `false`, every other value `true`. -/
def compare (R : DRing S) (f g : poly S) : Ret Bool :=
  ⟨decide (R.D.compare R.level f g ≠ 0), [DCall.compare]⟩

end DRing

/-- The integral promotion of a C++ `bool`: `false` is 0, `true` is 1. -/
def bool_to_int (b : Bool) : Int := if b then 1 else 0

/-- Number of value bits of the C++ type `long` (LP64). -/
def LONG_BITS : Nat := 64

/-- The least value of a `long`. -/
def LONG_MIN : Int := -(2 : Int) ^ (LONG_BITS - 1)

/-- The greatest value of a `long`. -/
def LONG_MAX : Int := (2 : Int) ^ (LONG_BITS - 1) - 1

/-- The mathematical integer `x` is representable as a `long`. -/
def in_long (x : Int) : Prop := LONG_MIN ≤ x ∧ x ≤ LONG_MAX

instance (x : Int) : Decidable (in_long x) := by unfold in_long; infer_instance

/-- The wrap-around (modulo 2^64) of a mathematical integer into the range of `long`. -/
def wrap_long (x : Int) : Int :=
  (x - LONG_MIN) % (2 : Int) ^ LONG_BITS + LONG_MIN

/-- The first statement of `set_from_int`, `r = r % P;`: the truncating remainder
of C++, stored in a `long`. -/
def set_from_int_rem (P r : Int) : Int := wrap_long (Int.tmod r P)

/-- The value of `r` when `set_from_int` calls `D.from_int(level, r)`:
`r = r % P; if (r < 0) r += P;` (dpoly.hpp, lines 223-224). -/
def set_from_int_arg (P r : Int) : Int :=
  let r := set_from_int_rem P r
  if r < 0 then wrap_long (r + P) else r

/-- The method `void set_from_int(poly &result, long r)`:
`r = r % P; if (r < 0) r += P; result = D.from_int(level, r);`. -/
def DRing.set_from_int {S : Type} (R : DRing S) (r : Int) : Ret (poly S) :=
  ⟨R.D.from_int R.level (set_from_int_arg R.P r), [DCall.from_int]⟩

/-- The address that a non-null `poly` holds: the identity of the `poly_struct` it points
to.  With `S := Addr` a `poly Addr` is an element handle. -/
abbrev Addr : Type := Nat

/-- The memory behind the handles: the struct (of type `V`) found at each address. -/
abbrev Heap (V : Type) : Type := Addr → V

/-- An in-place mutation through a handle: the struct at address `p` is overwritten by
`v`, every other struct is kept. -/
def Heap.write {V : Type} (m : Heap V) (p : Addr) (v : V) : Heap V :=
  fun q => if q = p then v else m q


/-! ## Part 2: the tower arithmetic of `DPoly`, modelled from the specification

The header declares the arithmetic of `DPoly` and defines none of it.  The model below
follows the specification (sections 3 and 4).  The levels of the tower are modelled one on
top of the other: the scalars of a level are the elements of the level below with the
arithmetic of that level (the integers modulo `p` at the innermost level), so "every scalar
operation becomes a recursive call one level down" is an operation of the scalar type `K`.
The scalars need not form a field: the level below may be transcendental, or algebraic with
a reducible defining polynomial, and the inversion of a scalar is the `invert` of the level
below, which returns zero for a scalar it cannot invert.  Part 4 shows that the elements of
a level, with the operations modelled here, are again scalars for the next level.  An
element of a level is the canonical zero or a coefficient array with a nonzero leading
coefficient.  Since the type `K` fixes the level, the operations take no `level` argument. -/

/-- Modelled from the spec: the scalars of a level: the elements of the level below with
its arithmetic, reduced modulo its defining polynomial (sections 4.2, 4.3), which is the
arithmetic of a commutative ring.  `invert` is the `DPoly::invert` of the level below
(section 4.4), the modular inverse at the innermost level: it "returns the canonical zero
element to signal not invertible", and a nonzero result is an inverse (section 8,
"whenever `invert(level, a)` returns a nonzero Element `b`, `mult(level, a, b, true) ==
one`"). -/
class Scalars (K : Type) extends CommRing K where
  invert : K → K
  mul_invert : ∀ a : K, invert a ≠ 0 → a * invert a = 1

/-- Modelled from the spec: the scalars of the innermost level are the integers modulo the
characteristic `p` (section 4.2, "all scalar arithmetic is modulo the characteristic");
`invert` is the inverse modulo `p`, and zero for a residue that has none, which "only if
`p` is not prime" happens to a nonzero residue. -/
instance Scalars.zmod (p : Nat) : Scalars (ZMod p) where
  invert := fun a => if a * a⁻¹ = 1 then a⁻¹ else 0
  mul_invert := by
    intro a h
    by_cases e : a * a⁻¹ = 1
    · simp only [if_pos e]; exact e
    · simp only [if_neg e] at h; exact absurd rfl h

namespace Tower

variable {K : Type} [Scalars K] [DecidableEq K]

/-- Modelled from the spec: the degree renormalisation `reset_degree` (section 3, "shrink
degree until either a nonzero leading coefficient is found or the whole element collapses to
the canonical zero"), on a coefficient list, constant term first.  Leading zero coefficients
are dropped; a list of zeros becomes empty. -/
def reset_degree : List K → List K
  | [] => []
  | a :: l => if reset_degree l = [] ∧ a = 0 then [] else a :: reset_degree l

/-- Modelled from the spec: the struct `poly_struct` behind a non-null `poly` (section 3,
Element).  `coeffs` are the coefficients `0 .. deg`, constant term first; spare capacity
is not part of the value and is not modelled.  The canonical-zero invariant is part of the
type: the array is not empty and its leading coefficient is not zero. -/
structure poly_struct (K : Type) [Scalars K] [DecidableEq K] where
  coeffs : List K
  nonzero : coeffs ≠ []
  canonical : reset_degree coeffs = coeffs

instance : DecidableEq (poly_struct K) := fun a b =>
  decidable_of_iff (a.coeffs = b.coeffs) (by cases a; cases b; simp)

/-- Modelled from the spec: an Element of the level, the type `poly` of the header: the
canonical zero is the absent value `none`. -/
abbrev elem (K : Type) [Scalars K] [DecidableEq K] : Type := poly (poly_struct K)

/-- Renormalising twice is renormalising once (used to build an element). -/
theorem reset_degree_idem (l : List K) : reset_degree (reset_degree l) = reset_degree l := by
  induction l with
  | nil => rfl
  | cons a l ih =>
    by_cases h : reset_degree l = [] ∧ a = 0
    · simp [reset_degree, h]
    · rw [reset_degree, if_neg h, reset_degree, ih, if_neg h]

/-- Modelled from the spec: the Element with the given coefficients, after degree
renormalisation (section 3): it is the canonical zero when all coefficients are zero. -/
def of_coeffs (l : List K) : elem K :=
  if h : reset_degree l = [] then none else some ⟨reset_degree l, h, reset_degree_idem l⟩

/-- Modelled from the spec: the coefficients `0 .. degree` of an Element (section 3); the
canonical zero has none. -/
def coeffs_of : elem K → List K
  | none => []
  | some s => s.coeffs

/-- Modelled from the spec: the attribute `degree` (section 3), the index of the highest
nonzero coefficient; the designated "no degree" value of the zero element is `-1`. -/
def degree (f : elem K) : Int := ((coeffs_of f).length : Int) - 1

/-- Modelled from the spec: the leading coefficient of an Element, the coefficient at index
`degree`; it is `0` for the zero element. -/
def lead_coeff (f : elem K) : K := (coeffs_of f).getLastD 0

/-- Modelled from the spec: coefficient-wise sum of two coefficient arrays (section 4.2,
add), the shorter one continued by zeros. -/
def add_coeffs : List K → List K → List K
  | [], g => g
  | f, [] => f
  | a :: f, b :: g => (a + b) :: add_coeffs f g

/-- Modelled from the spec: section 4.3, "coefficient `k` of the product is the sum over
`i+j=k` of `f[i]*g[j]`". -/
def conv_coeff (f g : List K) (k : Nat) : K :=
  ((List.range (k + 1)).map (fun i => f.getD i 0 * g.getD (k - i) 0)).sum

/-- Modelled from the spec: section 4.3, "multiplication is polynomial convolution": the
coefficients `0 .. deg f + deg g` of the product; none when a factor is zero. -/
def conv_coeffs (f g : List K) : List K :=
  if f = [] ∨ g = [] then [] else (List.range (f.length + g.length - 1)).map (conv_coeff f g)

/-- Modelled from the spec: one step of the division by a monic polynomial `g` (section
4.2).  `qr` is the quotient and remainder of the higher part of the dividend, `a` the next
lower coefficient of the dividend.  When the running remainder reaches the degree of `g`,
its leading coefficient `c` goes to the quotient and `c * g` is subtracted. -/
def monic_step (g : List K) (a : K) (qr : List K × List K) : List K × List K :=
  let r := a :: qr.2
  if r.length < g.length then (0 :: qr.1, r)
  else
    let c := r.getLastD 0
    (c :: qr.1, (add_coeffs r (g.map (fun b => -(c * b)))).dropLast)

/-- Modelled from the spec: division with remainder by a monic divisor `g` (section 4.2),
on coefficient arrays, from the leading coefficient of the dividend downwards; the result is
(quotient, remainder). -/
def monic_divmod (g : List K) : List K → List K × List K
  | [] => ([], [])
  | a :: f => monic_step g a (monic_divmod g f)

/-- Modelled from the spec: `DPoly::copy`, the deep copy of section 4.1; a copy has the
value of the original. -/
def copy (f : elem K) : elem K := f

/-- Modelled from the spec: `DPoly::from_int` (section 4.5), the constant Element of the
integer `c`, which the caller has reduced modulo the characteristic. -/
def from_int (c : Int) : elem K := of_coeffs [(c : K)]

/-- Modelled from the spec: `DPoly::is_one` (section 4.5): the Element is the constant one. -/
def is_one (f : elem K) : Bool := decide (coeffs_of f = [1])

/-- Modelled from the spec: `DPoly::is_equal` (section 4.1): "two Elements are equal iff
their degrees match and all coefficients in range are pairwise equal". -/
def is_equal (f g : elem K) : Bool :=
  decide (degree f = degree g) &&
    (List.zipWith (fun a b => decide (a = b)) (coeffs_of f) (coeffs_of g)).all id

/-- Modelled from the spec: the comparison of the coefficients "from the leading term
downward using the level-below order" `cmp` (section 4.1); the arrays are given leading
coefficient first. -/
def compare_coeffs (cmp : K → K → Int) : List K → List K → Int
  | a :: f, b :: g => if cmp a b ≠ 0 then cmp a b else compare_coeffs cmp f g
  | _, _ => 0

/-- Modelled from the spec: `DPoly::compare` (section 4.1), "compare degrees first, then
compare coefficients from the leading term downward using the level-below order".  The
direction is fixed as: the lower degree precedes (result `-1`). -/
def compare (cmp : K → K → Int) (f g : elem K) : Int :=
  if degree f < degree g then -1
  else if degree g < degree f then 1
  else compare_coeffs cmp (coeffs_of f).reverse (coeffs_of g).reverse

/-- Modelled from the spec: `DPoly::negate_in_place` (section 4.2); the value is the new
`f`. -/
def negate_in_place (f : elem K) : elem K := of_coeffs ((coeffs_of f).map (fun a => -a))

/-- Modelled from the spec: `DPoly::add_in_place` (sections 4.2, 4.3), `f += g` with degree
renormalisation; the value is the new `f`. -/
def add_in_place (f g : elem K) : elem K := of_coeffs (add_coeffs (coeffs_of f) (coeffs_of g))

/-- Modelled from the spec: `DPoly::subtract_in_place` (sections 4.2, 4.3), `f -= g` with
degree renormalisation; the value is the new `f`. -/
def subtract_in_place (f g : elem K) : elem K :=
  of_coeffs (add_coeffs (coeffs_of f) ((coeffs_of g).map (fun a => -a)))

/-- Modelled from the spec: `DPoly::mult_by_coeff`, `f *= b` for a scalar `b` of the level
below; the value is the new `f`. -/
def mult_by_coeff (f : elem K) (b : K) : elem K := of_coeffs ((coeffs_of f).map (fun a => a * b))

/-- Modelled from the spec: `DPoly::make_monic` (section 4.3): the leading coefficient is
inverted by "a recursive inversion at level N-1" and every coefficient is multiplied by the
result, which makes the leading coefficient the multiplicative identity when it is
invertible; "it also returns the multiplier applied".  When the level below cannot invert
the leading coefficient its `invert` returns zero, and so does the multiplication by it.
The zero element is left as it is, with multiplier one. -/
def make_monic (f : elem K) : elem K × K :=
  if DPoly.is_zero f then (f, 1)
  else (mult_by_coeff f (Scalars.invert (lead_coeff f)), Scalars.invert (lead_coeff f))

/-- Modelled from the spec: `DPoly::division_in_place_monic` (sections 4.2, 7): division with
remainder by a monic `g`, which never fails.  The value is (new `f`, returned quotient); the
new `f` is the remainder. -/
def division_in_place_monic (f g : elem K) : elem K × elem K :=
  let qr := monic_divmod (coeffs_of g) (coeffs_of f)
  (of_coeffs qr.2, of_coeffs qr.1)

/-- Modelled from the spec: `DPoly::division_in_place` (sections 4.2, 7), the general
division: "division by a non-monic divisor first requires inverting its leading
coefficient", and it "returns a success flag".  It fails when the divisor is zero or the
level below cannot invert its leading coefficient (its `invert` returns zero); the dividend
is then left as it was.  Otherwise the divisor is made monic, the monic division is run, and
the multiplier rescales the quotient.  The value is (success flag, new `f`, `result_quot`);
after a success the new `f` is the remainder. -/
def division_in_place (f g : elem K) : Bool × elem K × elem K :=
  if DPoly.is_zero g ∨ Scalars.invert (lead_coeff g) = 0 then (false, f, none)
  else
    let gm := make_monic g
    let rq := division_in_place_monic f gm.1
    (true, rq.1, mult_by_coeff rq.2 gm.2)

/-- Modelled from the spec: the Tower Descriptor (section 3), as far as one level uses it:
the defining polynomial `ext` of the level, which is the canonical zero at a transcendental
level, and the order `cmp` of the level below, which `compare` recurses into. -/
structure Level (K : Type) [Scalars K] [DecidableEq K] where
  ext : elem K
  cmp : K → K → Int

/-- Modelled from the spec: `DPoly::degree_of_extension` (section 3): "the defining
polynomial degree for an algebraic level, or a negative sentinel for a transcendental
level". -/
def degree_of_extension (T : Level K) : Int := degree T.ext

/-- Modelled from the spec: the reduction modulo the defining polynomial of an algebraic
level (section 4.3): "reduction is performed by monic polynomial division: if the defining
polynomial is not monic, it is first made monic via make_monic, carrying a multiplier that
must be divided back out of the remainder".  The multiplier `m` of `make_monic` is carried
by the dividend (`m * f` is divided by the monic `m * ext`) and divided out of the remainder,
which leaves `f` reduced modulo `ext`.  The multiplier is the inverse of the leading
coefficient of `ext`, so dividing by it is multiplying by that leading coefficient. -/
def reduce_by_extension (T : Level K) (f : elem K) : elem K :=
  let em := make_monic T.ext
  let r := (division_in_place_monic (mult_by_coeff f em.2) em.1).1
  mult_by_coeff r (lead_coeff T.ext)

/-- Modelled from the spec: plain polynomial-ring multiplication of two Elements (section
4.3), the convolution with degree renormalisation: `DPoly::mult` without reduction. -/
def times (f g : elem K) : elem K := of_coeffs (conv_coeffs (coeffs_of f) (coeffs_of g))

/-- Modelled from the spec: `DPoly::mult` (section 4.3): the convolution, and "a
reduce_by_extension flag controls whether the raw convolution result is subsequently reduced
modulo" the defining polynomial; no reduction is ever applied at a transcendental level. -/
def mult (T : Level K) (f g : elem K) (reduce : Bool) : elem K :=
  let raw := times f g
  if reduce && decide (0 ≤ degree_of_extension T) then reduce_by_extension T raw else raw

/-- Modelled from the spec: the state of the extended Euclidean algorithm (section 4.4):
two consecutive remainders `r0`, `r1` with their co-factors, `r0 = s0 * f + t0 * g` and
`r1 = s1 * f + t1 * g`. -/
structure Bezout (K : Type) [Scalars K] [DecidableEq K] where
  r0 : elem K
  r1 : elem K
  s0 : elem K
  s1 : elem K
  t0 : elem K
  t1 : elem K

/-- Modelled from the spec: the loop of `DPoly::gcd_coefficients` (section 4.4), "the
standard co-factor recurrence alongside the remainder recurrence": with `q` the quotient of
`r0` by `r1`, the state becomes `(r1, r0 mod r1, s1, s0 - q*s1, t1, t0 - q*t1)`.  When the
division by `r1` fails, `r1` is the last remainder, as in `gcd_loop`, and the loop ends with
`r1` and its co-factors in front. -/
def gcd_coefficients_loop : Nat → Bezout K → Bezout K
  | 0, b => b
  | n + 1, b =>
    if DPoly.is_zero b.r1 then b
    else
      let d := division_in_place b.r0 b.r1
      let q := d.2.2
      if d.1 then
        gcd_coefficients_loop n
          ⟨b.r1, d.2.1, b.s1, subtract_in_place b.s0 (times q b.s1),
            b.t1, subtract_in_place b.t0 (times q b.t1)⟩
      else ⟨b.r1, none, b.s1, b.s0, b.t1, b.t0⟩

/-- Modelled from the spec: `DPoly::gcd_coefficients` (section 4.4): the extended Euclidean
algorithm, started at `(f, g)` with co-factors `(1, 0)` and `(0, 1)`; the last nonzero
remainder is made monic and the multiplier is applied to its co-factors.  The value is
(returned `d`, `result_u`, `result_v`). -/
def gcd_coefficients (f g : elem K) : elem K × elem K × elem K :=
  let b := gcd_coefficients_loop ((coeffs_of g).length + 1)
    ⟨f, g, from_int 1, none, none, from_int 1⟩
  let dm := make_monic b.r0
  (dm.1, mult_by_coeff b.s0 dm.2, mult_by_coeff b.t0 dm.2)

/-- Modelled from the spec: `DPoly::invert` (section 4.4): "computes
`gcd_coefficients(level, a, ext[level])`; if `d` is a nonzero constant (degree 0), the
inverse is `u` scaled by the inverse of the constant term of `d`; otherwise `a` is not
invertible", which "returns the canonical zero element".  The inverse of the constant
term is the `invert` of the level below. -/
def invert (T : Level K) (a : elem K) : elem K :=
  let duv := gcd_coefficients a T.ext
  if degree duv.1 = 0 then mult_by_coeff duv.2.1 (Scalars.invert (lead_coeff duv.1))
  else none

/-- Modelled from the spec: an element is in reduced form at its level: its degree is below
the degree of the extension, or the level is transcendental (section 4.3: the result of a
multiplication is "reduced modulo" the defining polynomial at an algebraic level, "no
reduction" is applied at a transcendental one). -/
def is_reduced (T : Level K) (f : elem K) : Prop :=
  degree_of_extension T < 0 ∨ degree f < degree_of_extension T

instance (T : Level K) (f : elem K) : Decidable (is_reduced T f) := by
  unfold is_reduced; infer_instance

/-- Modelled from the spec: the defining polynomial of the level can be made monic, which
the reduction at the level needs (section 4.3, "reduction is performed by monic polynomial
division"): it is absent, or the level below inverts its leading coefficient.  Only such a
level has an arithmetic for the next level to use. -/
def well_formed (T : Level K) : Prop :=
  T.ext = none ∨ Scalars.invert (lead_coeff T.ext) ≠ 0

instance (T : Level K) : Decidable (well_formed T) := by
  unfold well_formed; infer_instance

/-- Modelled from the spec: the `DPoly` of the header at one level, with the operations
above.  The type `K` of the scalars fixes the level, so the `level` argument of the header is
not consulted: every call behaves as a call with the level of its elements, and "passing a
mismatched level is undefined behavior" (section 4.1). -/
def dpoly (T : Level K) : DPoly (poly_struct K) where
  copy := fun _ f => copy f
  from_int := fun _ c => from_int c
  is_one := fun _ f => is_one f
  is_equal := fun _ f g => is_equal f g
  compare := fun _ f g => compare T.cmp f g
  add_in_place := fun _ f g => add_in_place f g
  subtract_in_place := fun _ f g => subtract_in_place f g
  mult := fun _ f g r => mult T f g r
  invert := fun _ a => invert T a

/-- Modelled from the spec: the adapter `DRing` over the modelled `DPoly`; the constructor
of `DRing` is not in the header, `P` is the characteristic it is created with. -/
def dring (T : Level K) (level P : Int) : DRing (poly_struct K) := ⟨level, dpoly T, P⟩

/-- The polynomial over `K` that a coefficient array stands for (used in proofs only). -/
noncomputable def den : List K → Polynomial K
  | [] => 0
  | a :: l => Polynomial.C a + Polynomial.X * den l

/-- The polynomial over `K` that an Element stands for (used in proofs only). -/
noncomputable def val (f : elem K) : Polynomial K := den (coeffs_of f)

end Tower

/-! ## Part 3: properties of the modelled arithmetic -/

set_option linter.unusedSectionVars false

namespace Tower

variable {K : Type} [Scalars K] [DecidableEq K]

/-! ### Coefficient arrays and the polynomials they stand for -/

/-- The coefficient of `X^n` in the polynomial of a coefficient array is its entry `n`. -/
theorem coeff_den (l : List K) (n : Nat) : (den l).coeff n = l.getD n 0 := by
  induction l generalizing n with
  | nil => simp [den]
  | cons a l ih =>
    cases n with
    | zero => simp [den]
    | succ n => simp [den, ih, Polynomial.coeff_C_succ]

theorem den_reset_degree (l : List K) : den (reset_degree l) = den l := by
  induction l with
  | nil => rfl
  | cons a l ih =>
    by_cases h : reset_degree l = [] ∧ a = 0
    · have h0 : den l = 0 := by rw [← ih, h.1]; rfl
      simp [reset_degree, h, den, h0]
    · rw [reset_degree, if_neg h, den, den, ih]

theorem den_cons_eq_zero {a : K} {l : List K} (h : den (a :: l) = 0) : a = 0 ∧ den l = 0 := by
  constructor
  · have := congrArg (fun p => Polynomial.coeff p 0) h
    simpa [den] using this
  · apply Polynomial.ext
    intro n
    have := congrArg (fun p => Polynomial.coeff p (n + 1)) h
    simpa [den, Polynomial.coeff_C_succ] using this

theorem reset_degree_eq_nil_of_den {l : List K} (h : den l = 0) : reset_degree l = [] := by
  induction l with
  | nil => rfl
  | cons a l ih =>
    obtain ⟨ha, hl⟩ := den_cons_eq_zero h
    simp [reset_degree, ih hl, ha]

theorem den_cons_inj {a b : K} {l m : List K} (h : den (a :: l) = den (b :: m)) :
    a = b ∧ den l = den m := by
  constructor
  · have := congrArg (fun p => Polynomial.coeff p 0) h
    simpa [den] using this
  · apply Polynomial.ext
    intro n
    have := congrArg (fun p => Polynomial.coeff p (n + 1)) h
    simpa [den, Polynomial.coeff_C_succ] using this

theorem reset_degree_congr {l m : List K} (h : den l = den m) :
    reset_degree l = reset_degree m := by
  induction l generalizing m with
  | nil =>
    rw [reset_degree_eq_nil_of_den (l := m) (by rw [← h]; rfl)]; rfl
  | cons a l ih =>
    cases m with
    | nil => rw [reset_degree_eq_nil_of_den (l := a :: l) (by rw [h]; rfl)]; rfl
    | cons b m =>
      obtain ⟨hab, hlm⟩ := den_cons_inj h
      simp [reset_degree, ih hlm, hab]

theorem coeffs_of_of_coeffs (l : List K) : coeffs_of (of_coeffs l) = reset_degree l := by
  unfold of_coeffs
  split
  · next h => simp [coeffs_of, h]
  · rfl

theorem val_of_coeffs (l : List K) : val (of_coeffs l) = den l := by
  rw [val, coeffs_of_of_coeffs, den_reset_degree]

theorem reset_degree_coeffs_of (f : elem K) : reset_degree (coeffs_of f) = coeffs_of f := by
  cases f with
  | none => rfl
  | some s => exact s.canonical

theorem coeffs_of_inj {f g : elem K} (h : coeffs_of f = coeffs_of g) : f = g := by
  cases f with
  | none =>
    cases g with
    | none => rfl
    | some t => exact absurd h.symm t.nonzero
  | some s =>
    cases g with
    | none => exact absurd h s.nonzero
    | some t =>
      cases s; cases t
      simp only [coeffs_of] at h
      subst h
      rfl

theorem val_inj {f g : elem K} (h : val f = val g) : f = g := by
  apply coeffs_of_inj
  rw [← reset_degree_coeffs_of f, ← reset_degree_coeffs_of g]
  exact reset_degree_congr h

theorem val_none : val (none : elem K) = 0 := rfl

theorem val_eq_zero_iff (f : elem K) : val f = 0 ↔ f = none := by
  constructor
  · intro h
    exact val_inj (h.trans val_none.symm)
  · intro h
    rw [h, val_none]

theorem of_coeffs_coeffs_of (f : elem K) : of_coeffs (coeffs_of f) = f := by
  apply val_inj
  rw [val_of_coeffs, val]



/-! ### The operations on coefficient arrays and on elements -/

theorem den_add_coeffs (f g : List K) : den (add_coeffs f g) = den f + den g := by
  induction f generalizing g with
  | nil => simp [add_coeffs, den]
  | cons a f ih =>
    cases g with
    | nil => simp [add_coeffs, den]
    | cons b g =>
      simp only [add_coeffs, den, ih, map_add]
      ring

theorem den_map_neg (f : List K) : den (f.map (fun a => -a)) = -den f := by
  induction f with
  | nil => simp [den]
  | cons a f ih =>
    simp only [List.map_cons, den, ih, map_neg]
    ring

theorem den_map_mul (f : List K) (b : K) :
    den (f.map (fun a => a * b)) = den f * Polynomial.C b := by
  induction f with
  | nil => simp [den]
  | cons a f ih =>
    simp only [List.map_cons, den, ih, map_mul]
    ring

theorem den_map_neg_mul (g : List K) (c : K) :
    den (g.map (fun b => -(c * b))) = -(Polynomial.C c * den g) := by
  induction g with
  | nil => simp [den]
  | cons a g ih =>
    simp only [List.map_cons, den, ih, map_neg, map_mul]
    ring

theorem sum_map_range (F : Nat → K) (n : Nat) :
    ((List.range n).map F).sum = ∑ i in Finset.range n, F i := by
  induction n with
  | zero => simp
  | succ n ih => simp [List.range_succ, Finset.sum_range_succ, ih]

theorem conv_coeff_eq (f g : List K) (k : Nat) :
    conv_coeff f g k = (den f * den g).coeff k := by
  rw [conv_coeff, sum_map_range, Polynomial.coeff_mul,
    Finset.Nat.sum_antidiagonal_eq_sum_range_succ (fun i j => (den f).coeff i * (den g).coeff j)]
  simp [coeff_den]

theorem den_conv_coeffs (f g : List K) : den (conv_coeffs f g) = den f * den g := by
  unfold conv_coeffs
  split
  · next h =>
    rcases h with h | h <;> simp [h, den]
  · next h =>
    push_neg at h
    apply Polynomial.ext
    intro n
    rw [coeff_den]
    by_cases hn : n < f.length + g.length - 1
    · rw [List.getD_eq_getElem _ _ (by simpa using hn)]
      simp [conv_coeff_eq]
    · rw [List.getD_eq_default _ _ (by simpa using hn)]
      symm
      rw [Polynomial.coeff_mul]
      apply Finset.sum_eq_zero
      intro x hx
      rw [Finset.mem_antidiagonal] at hx
      rw [coeff_den, coeff_den]
      have hf : 0 < f.length := List.length_pos.mpr h.1
      have hg : 0 < g.length := List.length_pos.mpr h.2
      by_cases h1 : x.1 < f.length
      · have h2 : g.length ≤ x.2 := by omega
        rw [List.getD_eq_default _ _ h2, mul_zero]
      · rw [List.getD_eq_default _ _ (by omega), zero_mul]

theorem val_add_in_place (f g : elem K) : val (add_in_place f g) = val f + val g := by
  rw [add_in_place, val_of_coeffs, den_add_coeffs]; rfl

theorem val_subtract_in_place (f g : elem K) : val (subtract_in_place f g) = val f - val g := by
  rw [subtract_in_place, val_of_coeffs, den_add_coeffs, den_map_neg, sub_eq_add_neg]; rfl

theorem val_negate_in_place (f : elem K) : val (negate_in_place f) = -val f := by
  rw [negate_in_place, val_of_coeffs, den_map_neg]; rfl

theorem val_mult_by_coeff (f : elem K) (b : K) :
    val (mult_by_coeff f b) = val f * Polynomial.C b := by
  rw [mult_by_coeff, val_of_coeffs, den_map_mul]; rfl

theorem val_times (f g : elem K) : val (times f g) = val f * val g := by
  rw [times, val_of_coeffs, den_conv_coeffs]; rfl

theorem val_from_int (c : Int) : val (from_int c : elem K) = Polynomial.C (c : K) := by
  rw [from_int, val_of_coeffs]; simp [den]

/-- The polynomial of a coefficient array has degree below the length of the array. -/
theorem degree_den_lt (l : List K) : (den l).degree < (l.length : WithBot ℕ) := by
  rw [Polynomial.degree_lt_iff_coeff_zero]
  intro m hm
  rw [coeff_den, List.getD_eq_default _ _ hm]

theorem getLastD_ne_zero_of_canonical {l : List K} (hne : l ≠ []) (hc : reset_degree l = l) :
    l.getD (l.length - 1) 0 ≠ 0 := by
  induction l with
  | nil => exact absurd rfl hne
  | cons a l ih =>
    rw [reset_degree] at hc
    split at hc
    · exact absurd hc.symm (List.cons_ne_nil _ _)
    · next h =>
      have hl : reset_degree l = l := List.tail_eq_of_cons_eq hc
      by_cases hnil : l = []
      · subst hnil
        simp [reset_degree] at h
        simpa using h
      · have := ih hnil hl
        have hpos : 0 < l.length := List.length_pos.mpr hnil
        have e : (a :: l).length - 1 = (l.length - 1) + 1 := by simp; omega
        rw [e, List.getD_cons_succ]
        exact this

theorem natDegree_val {f : elem K} (hf : f ≠ none) :
    (val f).natDegree + 1 = (coeffs_of f).length := by
  cases f with
  | none => exact absurd rfl hf
  | some s =>
    have hlast := getLastD_ne_zero_of_canonical s.nonzero s.canonical
    have hpos : 0 < s.coeffs.length := List.length_pos.mpr s.nonzero
    show (den s.coeffs).natDegree + 1 = s.coeffs.length
    have h1 : (den s.coeffs).natDegree ≤ s.coeffs.length - 1 := by
      rw [Polynomial.natDegree_le_iff_coeff_eq_zero]
      intro m hm
      rw [coeff_den, List.getD_eq_default _ _ (by omega)]
    have h2 : s.coeffs.length - 1 ≤ (den s.coeffs).natDegree := by
      apply Polynomial.le_natDegree_of_ne_zero
      rw [coeff_den]
      exact hlast
    omega

theorem leadingCoeff_val (f : elem K) : (val f).leadingCoeff = lead_coeff f := by
  cases f with
  | none => simp [val_none, lead_coeff, coeffs_of]
  | some s =>
    have h := natDegree_val (f := some s) (by simp)
    rw [Polynomial.leadingCoeff, val, coeff_den, lead_coeff]
    have e : (val (some s)).natDegree = (coeffs_of (some s)).length - 1 := by omega
    rw [val] at e
    rw [e]
    generalize coeffs_of (some s) = l
    rw [List.getLastD_eq_getLast?, List.getLast?_eq_getElem?, List.getD_eq_getElem?_getD]



/-! ### Monic normalisation and division with remainder -/

theorem lead_coeff_ne_zero {f : elem K} (hf : f ≠ none) : lead_coeff f ≠ 0 := by
  rw [← leadingCoeff_val]
  intro h
  exact hf ((val_eq_zero_iff f).mp (Polynomial.leadingCoeff_eq_zero.mp h))

theorem is_zero_iff (f : elem K) : DPoly.is_zero f = true ↔ f = none := by
  cases f <;> simp [DPoly.is_zero]

/-- A nonzero result of the `invert` of the level below shows that the scalars are not all
equal. -/
theorem nontrivial_of_invert {c : K} (h : Scalars.invert c ≠ 0) : Nontrivial K :=
  ⟨⟨Scalars.invert c, 0, h⟩⟩

/-- The level below does not invert zero. -/
theorem ne_zero_of_invert {c : K} (h : Scalars.invert c ≠ 0) : c ≠ 0 := by
  intro hc
  have h1 := Scalars.mul_invert c h
  rw [hc, zero_mul] at h1
  exact h (by rw [← mul_one (Scalars.invert c), ← h1, mul_zero])

theorem ne_none_of_invert {f : elem K} (h : Scalars.invert (lead_coeff f) ≠ 0) :
    f ≠ none := by
  intro hf
  apply ne_zero_of_invert h
  rw [hf]
  rfl

theorem mult_by_coeff_zero (f : elem K) : mult_by_coeff f 0 = none := by
  apply val_inj
  rw [val_mult_by_coeff, val_none]
  simp

theorem val_make_monic (f : elem K) :
    val (make_monic f).1 = val f * Polynomial.C (make_monic f).2 := by
  unfold make_monic
  split
  · simp
  · simp [val_mult_by_coeff]

theorem make_monic_snd {f : elem K} (hf : f ≠ none) :
    (make_monic f).2 = Scalars.invert (lead_coeff f) := by
  have hz : ¬ DPoly.is_zero f = true := fun e => hf ((is_zero_iff f).mp e)
  rw [make_monic, if_neg hz]

theorem lead_coeff_mul_make_monic_snd {f : elem K} (h : Scalars.invert (lead_coeff f) ≠ 0) :
    lead_coeff f * (make_monic f).2 = 1 := by
  rw [make_monic_snd (ne_none_of_invert h)]
  exact Scalars.mul_invert _ h

/-- Without an inverse of the leading coefficient, `make_monic` leaves the zero element. -/
theorem make_monic_of_not_invertible {f : elem K} (h : Scalars.invert (lead_coeff f) = 0) :
    (make_monic f).1 = none := by
  unfold make_monic
  split
  · next hz => exact (is_zero_iff f).mp hz
  · simp only [h]
    exact mult_by_coeff_zero f

theorem monic_make_monic {f : elem K} (h : Scalars.invert (lead_coeff f) ≠ 0) :
    (val (make_monic f).1).Monic := by
  rw [val_make_monic]
  apply Polynomial.monic_mul_C_of_leadingCoeff_mul_eq_one
  rw [leadingCoeff_val]
  exact lead_coeff_mul_make_monic_snd h

theorem make_monic_ne_none {f : elem K} (h : Scalars.invert (lead_coeff f) ≠ 0) :
    (make_monic f).1 ≠ none := by
  intro e
  have hm := monic_make_monic h
  haveI := nontrivial_of_invert h
  rw [e, val_none] at hm
  exact Polynomial.not_monic_zero hm

theorem den_dropLast {l : List K} (h : l.getLastD 0 = 0) : den l.dropLast = den l := by
  induction l with
  | nil => rfl
  | cons a l ih =>
    cases l with
    | nil =>
      simp at h
      simp [den, h]
    | cons b l =>
      have e : den (a :: b :: l) = Polynomial.C a + Polynomial.X * den (b :: l) := rfl
      rw [List.dropLast_cons₂, den, e, ih (by simpa using h)]

theorem getLastD_add_coeffs (f g : List K) (x y : K) (h : f.length = g.length) :
    (add_coeffs f g).getLastD (x + y) = f.getLastD x + g.getLastD y := by
  induction f generalizing g x y with
  | nil =>
    cases g with
    | nil => simp [add_coeffs]
    | cons b g => simp at h
  | cons a f ih =>
    cases g with
    | nil => simp at h
    | cons b g =>
      simp only [add_coeffs, List.getLastD_cons]
      exact ih g a b (by simpa using h)

theorem length_add_coeffs (f g : List K) (h : f.length = g.length) :
    (add_coeffs f g).length = f.length := by
  induction f generalizing g with
  | nil =>
    cases g with
    | nil => rfl
    | cons b g => simp at h
  | cons a f ih =>
    cases g with
    | nil => simp at h
    | cons b g =>
      simp only [add_coeffs, List.length_cons]
      rw [ih g (by simpa using h)]

theorem getLastD_map (F : K → K) (l : List K) (x : K) :
    (l.map F).getLastD (F x) = F (l.getLastD x) := by
  induction l generalizing x with
  | nil => rfl
  | cons a l ih => simp only [List.map_cons, List.getLastD_cons, ih]

/-- The division by a list whose last coefficient is one: the division identity, and the
remainder is shorter than the divisor. -/
theorem monic_divmod_spec (g : List K) (hg : g.getLastD 0 = 1) (hne : g ≠ []) (f : List K) :
    den f = den (monic_divmod g f).1 * den g + den (monic_divmod g f).2 ∧
      (monic_divmod g f).2.length < g.length := by
  induction f with
  | nil =>
    simp [monic_divmod, den, List.length_pos.mpr hne]
  | cons a f ih =>
    obtain ⟨ih1, ih2⟩ := ih
    rw [monic_divmod]
    generalize monic_divmod g f = qr at ih1 ih2
    unfold monic_step
    simp only
    split
    · next hlt =>
      refine ⟨?_, hlt⟩
      simp only [den]
      rw [ih1]
      simp
      ring
    · next hge =>
      have hlen : (a :: qr.2).length = g.length := by
        simp only [List.length_cons] at hge ⊢
        omega
      set c := (a :: qr.2).getLastD 0 with hc
      have hlen2 : (a :: qr.2).length = (g.map (fun b => -(c * b))).length := by
        rw [List.length_map]; exact hlen
      have hlast : (add_coeffs (a :: qr.2) (g.map (fun b => -(c * b)))).getLastD 0 = 0 := by
        have h0 : (0 : K) = 0 + (fun b => -(c * b)) 0 := by simp
        rw [h0, getLastD_add_coeffs _ _ _ _ hlen2, getLastD_map, hg, ← hc]
        simp
      constructor
      · rw [den_dropLast hlast, den_add_coeffs, den_map_neg_mul]
        simp only [den]
        rw [ih1]
        ring
      · rw [List.length_dropLast, length_add_coeffs _ _ hlen2, hlen]
        have := List.length_pos.mpr hne
        omega

theorem getLastD_coeffs_of (f : elem K) : (coeffs_of f).getLastD 0 = lead_coeff f := rfl

theorem length_reset_degree_le (l : List K) : (reset_degree l).length ≤ l.length := by
  induction l with
  | nil => simp [reset_degree]
  | cons a l ih =>
    rw [reset_degree]
    split
    · simp
    · simpa using ih

theorem length_coeffs_of_of_coeffs_le (l : List K) :
    (coeffs_of (of_coeffs l)).length ≤ l.length := by
  rw [coeffs_of_of_coeffs]; exact length_reset_degree_le l

/-- The division by a monic element: the division identity, and the remainder has fewer
coefficients than the divisor. -/
theorem division_in_place_monic_spec (f g : elem K) (hg : (val g).Monic) (hne : g ≠ none) :
    val f = val (division_in_place_monic f g).2 * val g + val (division_in_place_monic f g).1 ∧
      (coeffs_of (division_in_place_monic f g).1).length < (coeffs_of g).length := by
  have hl : (coeffs_of g).getLastD 0 = 1 := by
    rw [getLastD_coeffs_of, ← leadingCoeff_val]; exact hg
  have hnil : coeffs_of g ≠ [] := by
    intro h; exact hne (coeffs_of_inj (f := g) (g := none) h)
  obtain ⟨h1, h2⟩ := monic_divmod_spec (coeffs_of g) hl hnil (coeffs_of f)
  constructor
  · simp only [division_in_place_monic, val_of_coeffs]
    exact h1
  · exact lt_of_le_of_lt (length_coeffs_of_of_coeffs_le _) h2

theorem degree_val_lt_of_length_lt {r g : elem K} (hg : g ≠ none)
    (h : (coeffs_of r).length < (coeffs_of g).length) : (val r).degree < (val g).degree := by
  have hg0 : val g ≠ 0 := fun e => hg ((val_eq_zero_iff g).mp e)
  have h1 := degree_den_lt (coeffs_of r)
  have h2 := natDegree_val hg
  rw [Polynomial.degree_eq_natDegree hg0]
  refine lt_of_lt_of_le h1 ?_
  have : (coeffs_of r).length ≤ (val g).natDegree := by omega
  exact_mod_cast this

theorem val_division_in_place_monic (f g : elem K) (hg : (val g).Monic) (hne : g ≠ none) :
    val (division_in_place_monic f g).1 = val f %ₘ val g := by
  obtain ⟨h1, h2⟩ := division_in_place_monic_spec f g hg hne
  have h3 : val (division_in_place_monic f g).1 + val g * val (division_in_place_monic f g).2
      = val f := by
    rw [add_comm, mul_comm]; exact h1.symm
  exact (Polynomial.div_modByMonic_unique (val (division_in_place_monic f g).2)
    (val (division_in_place_monic f g).1) hg ⟨h3, degree_val_lt_of_length_lt hne h2⟩).2.symm

theorem length_coeffs_make_monic {g : elem K} (h : Scalars.invert (lead_coeff g) ≠ 0) :
    (coeffs_of (make_monic g).1).length = (coeffs_of g).length := by
  haveI := nontrivial_of_invert h
  have h1 := natDegree_val (ne_none_of_invert h)
  have h2 := natDegree_val (make_monic_ne_none h)
  have h3 : (val g).leadingCoeff * (make_monic g).2 ≠ 0 := by
    rw [leadingCoeff_val, lead_coeff_mul_make_monic_snd h]
    exact one_ne_zero
  rw [val_make_monic, Polynomial.natDegree_mul_C_eq_of_mul_ne_zero h3] at h2
  omega

/-- The general division fails exactly when the divisor is zero or the level below cannot
invert its leading coefficient; it then leaves the dividend as it was. -/
theorem division_in_place_fails (f g : elem K) (h : Scalars.invert (lead_coeff g) = 0) :
    division_in_place f g = (false, f, none) := by
  rw [division_in_place, if_pos (Or.inr h)]

theorem division_in_place_fst (f g : elem K) :
    (division_in_place f g).1 = true ↔ Scalars.invert (lead_coeff g) ≠ 0 := by
  constructor
  · intro h hinv
    rw [division_in_place_fails f g hinv] at h
    exact absurd h (by simp)
  · intro h
    have hz : ¬ (DPoly.is_zero g = true ∨ Scalars.invert (lead_coeff g) = 0) := by
      rintro (e | e)
      · exact ne_none_of_invert h ((is_zero_iff g).mp e)
      · exact h e
    rw [division_in_place, if_neg hz]

/-- The general division by an element whose leading coefficient the level below inverts
succeeds: the division identity, and the remainder has fewer coefficients than the
divisor. -/
theorem division_in_place_spec (f g : elem K) (h : Scalars.invert (lead_coeff g) ≠ 0) :
    (division_in_place f g).1 = true ∧
    val f = val (division_in_place f g).2.2 * val g + val (division_in_place f g).2.1 ∧
      (coeffs_of (division_in_place f g).2.1).length < (coeffs_of g).length := by
  have hz : ¬ (DPoly.is_zero g = true ∨ Scalars.invert (lead_coeff g) = 0) := by
    rintro (e | e)
    · exact ne_none_of_invert h ((is_zero_iff g).mp e)
    · exact h e
  obtain ⟨h1, h2⟩ := division_in_place_monic_spec f (make_monic g).1 (monic_make_monic h)
    (make_monic_ne_none h)
  rw [division_in_place, if_neg hz]
  refine ⟨rfl, ?_, ?_⟩
  · simp only [val_mult_by_coeff]
    rw [val_make_monic] at h1
    rw [h1]
    ring
  · rw [length_coeffs_make_monic h] at h2
    exact h2

/-! ### The Euclidean algorithm and its co-factors -/

/-- The co-factor invariant of the extended Euclidean loop. -/
theorem gcd_coefficients_loop_inv (F G : Polynomial K) (n : Nat) (b : Bezout K)
    (h0 : F * val b.s0 + val b.t0 * G = val b.r0)
    (h1 : F * val b.s1 + val b.t1 * G = val b.r1) :
    F * val (gcd_coefficients_loop n b).s0 + val (gcd_coefficients_loop n b).t0 * G
      = val (gcd_coefficients_loop n b).r0 := by
  induction n generalizing b with
  | zero => exact h0
  | succ n ih =>
    rw [gcd_coefficients_loop]
    split
    · exact h0
    · simp only
      split
      · next hz hd =>
        obtain ⟨_, h2, _⟩ := division_in_place_spec b.r0 b.r1
          ((division_in_place_fst b.r0 b.r1).mp hd)
        apply ih
        · exact h1
        · simp only [val_subtract_in_place, val_times]
          have : val (division_in_place b.r0 b.r1).2.1
              = val b.r0 - val (division_in_place b.r0 b.r1).2.2 * val b.r1 := by
            rw [eq_sub_iff_add_eq, add_comm]; exact h2.symm
          rw [this, ← h0, ← h1]
          ring
      · exact h1

theorem val_gcd_coefficients (f g : elem K) :
    val f * val (gcd_coefficients f g).2.1 + val (gcd_coefficients f g).2.2 * val g
      = val (gcd_coefficients f g).1 := by
  have h := gcd_coefficients_loop_inv (val f) (val g) ((coeffs_of g).length + 1)
    ⟨f, g, from_int 1, none, none, from_int 1⟩
    (by simp [val_from_int, val_none]) (by simp [val_from_int, val_none])
  simp only [gcd_coefficients, val_mult_by_coeff, val_make_monic]
  rw [← h]
  ring

theorem mult_by_coeff_none (b : K) : mult_by_coeff (none : elem K) b = none := rfl

theorem degree_of_extension_nonneg_iff (T : Level K) :
    0 ≤ degree_of_extension T ↔ T.ext ≠ none := by
  unfold degree_of_extension degree
  cases h : T.ext with
  | none => simp [coeffs_of]
  | some s =>
    have := List.length_pos.mpr s.nonzero
    simp only [coeffs_of, ne_eq, not_false_eq_true, iff_true, reduceCtorEq]
    omega

/-- The reduction by an extension whose leading coefficient the level below inverts is the
remainder modulo the monic defining polynomial. -/
theorem val_reduce_by_extension (T : Level K) (f : elem K)
    (hT : Scalars.invert (lead_coeff T.ext) ≠ 0) :
    val (reduce_by_extension T f) = val f %ₘ val (make_monic T.ext).1 := by
  have hm := monic_make_monic hT
  have hc := lead_coeff_mul_make_monic_snd hT
  simp only [reduce_by_extension, val_mult_by_coeff,
    val_division_in_place_monic _ _ hm (make_monic_ne_none hT)]
  rw [mul_comm (val f), ← Polynomial.smul_eq_C_mul, Polynomial.smul_modByMonic,
    Polynomial.smul_eq_C_mul, mul_comm, ← mul_assoc, ← Polynomial.C_mul, hc]
  simp

/-- The reduction by an extension whose leading coefficient the level below does not invert
leaves the zero element. -/
theorem reduce_by_extension_of_not_invertible (T : Level K) (f : elem K)
    (hT : Scalars.invert (lead_coeff T.ext) = 0) (hne : T.ext ≠ none) :
    reduce_by_extension T f = none := by
  have h1 : (make_monic T.ext).1 = none := make_monic_of_not_invertible hT
  have h2 : (make_monic T.ext).2 = 0 := by rw [make_monic_snd hne, hT]
  simp only [reduce_by_extension, h1, h2, mult_by_coeff_zero]
  rfl

/-- Against a constant second argument, whose coefficient the level below inverts, the first
co-factor is zero. -/
theorem gcd_coefficients_const (a e : elem K) (he : (coeffs_of e).length = 1)
    (hinv : Scalars.invert (lead_coeff e) ≠ 0) :
    (gcd_coefficients a e).2.1 = none := by
  have hne : e ≠ none := ne_none_of_invert hinv
  obtain ⟨hd, _, hlt⟩ := division_in_place_spec a e hinv
  have hr : (division_in_place a e).2.1 = none := by
    apply coeffs_of_inj
    rw [he] at hlt
    exact List.length_eq_zero.mp (by simpa using hlt)
  have hz2 : Option.isNone e = false := by
    cases e with
    | none => exact absurd rfl hne
    | some s => rfl
  simp only [gcd_coefficients, he, gcd_coefficients_loop, hr, DPoly.is_zero, hz2, hd,
    Option.isNone_none, if_true, Bool.false_eq_true, if_false]
  rfl

/-- Against a second argument whose leading coefficient the level below does not invert,
the returned `d` is zero. -/
theorem gcd_coefficients_of_not_invertible (a e : elem K) (hne : e ≠ none)
    (hinv : Scalars.invert (lead_coeff e) = 0) :
    (gcd_coefficients a e).1 = none := by
  have hz2 : Option.isNone e = false := by
    cases e with
    | none => exact absurd rfl hne
    | some s => rfl
  have hd : (division_in_place a e).1 = false := by rw [division_in_place_fails a e hinv]
  simp only [gcd_coefficients, gcd_coefficients_loop, DPoly.is_zero, hz2, hd,
    Bool.false_eq_true, if_false]
  exact make_monic_of_not_invertible hinv

theorem coeffs_of_degree_zero {d : elem K} (h : degree d = 0) :
    d ≠ none ∧ val d = Polynomial.C (lead_coeff d) := by
  have hlen : (coeffs_of d).length = 1 := by unfold degree at h; omega
  have hne : d ≠ none := by
    intro e; rw [e] at hlen; simp [coeffs_of] at hlen
  refine ⟨hne, ?_⟩
  obtain ⟨c, hc⟩ := List.length_eq_one.mp hlen
  rw [val, lead_coeff, hc]
  simp [den]

theorem val_one : val (from_int 1 : elem K) = 1 := by
  rw [val_from_int]; simp

theorem is_one_from_int_one [Nontrivial K] : is_one (from_int 1 : elem K) = true := by
  have : coeffs_of (from_int 1 : elem K) = [1] := by
    rw [from_int, coeffs_of_of_coeffs]
    simp [reset_degree]
  simp [is_one, this]

/-- A nonzero `invert(a)` comes with an inverse of the constant `d` at the level below. -/
theorem invert_ne_none (T : Level K) (a : elem K) (h : invert T a ≠ none) :
    degree (gcd_coefficients a T.ext).1 = 0 ∧
      Scalars.invert (lead_coeff (gcd_coefficients a T.ext).1) ≠ 0 := by
  unfold invert at h
  simp only at h
  split at h
  · next hd =>
    refine ⟨hd, ?_⟩
    intro e
    rw [e, mult_by_coeff_zero] at h
    exact h rfl
  · exact absurd rfl h

/-- The product of `a` and a nonzero `invert(a)`, before reduction, is one plus a multiple
of the defining polynomial. -/
theorem val_invert (T : Level K) (a : elem K) (h : invert T a ≠ none) :
    ∃ w, val a * val (invert T a) = 1 + val T.ext * w := by
  obtain ⟨hd, hinv⟩ := invert_ne_none T a h
  have hl := Scalars.mul_invert _ hinv
  obtain ⟨_, hC⟩ := coeffs_of_degree_zero hd
  have hb := val_gcd_coefficients a T.ext
  rw [hC] at hb
  unfold invert
  simp only [if_pos hd]
  refine ⟨-(val (gcd_coefficients a T.ext).2.2 *
    Polynomial.C (Scalars.invert (lead_coeff (gcd_coefficients a T.ext).1))), ?_⟩
  rw [val_mult_by_coeff, ← mul_assoc]
  have : val a * val (gcd_coefficients a T.ext).2.1
      = Polynomial.C (lead_coeff (gcd_coefficients a T.ext).1)
        - val (gcd_coefficients a T.ext).2.2 * val T.ext := by
    rw [eq_sub_iff_add_eq]; exact hb
  rw [this, sub_mul, ← Polynomial.C_mul, hl]
  simp
  ring

theorem invert_const_ext (T : Level K) (a : elem K) (he : (coeffs_of T.ext).length = 1)
    (hinv : Scalars.invert (lead_coeff T.ext) ≠ 0) :
    invert T a = none := by
  unfold invert
  simp only [gcd_coefficients_const a T.ext he hinv, mult_by_coeff_none, ite_self]

theorem invert_of_not_invertible (T : Level K) (a : elem K) (hne : T.ext ≠ none)
    (hinv : Scalars.invert (lead_coeff T.ext) = 0) :
    invert T a = none := by
  unfold invert
  simp only [gcd_coefficients_of_not_invertible a T.ext hne hinv]
  rfl

/-- The inversion contract of the level: the reduced product of `a` and a nonzero
`invert(a)` is one, whatever the level below is. -/
theorem mult_invert (T : Level K) (a : elem K) (h : invert T a ≠ none) :
    mult T a (invert T a) true = from_int 1 := by
  obtain ⟨w, hw⟩ := val_invert T a h
  apply val_inj
  rw [val_one]
  unfold mult
  simp only [Bool.true_and]
  by_cases hT : T.ext = none
  · have hneg : ¬ 0 ≤ degree_of_extension T := by
      rw [degree_of_extension_nonneg_iff]; simpa using hT
    rw [if_neg (by simpa using hneg), val_times, hw, hT, val_none]
    simp
  · have hpos : 0 ≤ degree_of_extension T := (degree_of_extension_nonneg_iff T).mpr hT
    have hinv : Scalars.invert (lead_coeff T.ext) ≠ 0 := fun e =>
      h (invert_of_not_invertible T a hT e)
    haveI := nontrivial_of_invert hinv
    rw [if_pos (by simpa using hpos), val_reduce_by_extension T _ hinv, val_times, hw]
    have hm := monic_make_monic hinv
    have hlen : 2 ≤ (coeffs_of T.ext).length := by
      by_contra hlt
      have h1 : (coeffs_of T.ext).length ≠ 0 := by
        intro e
        exact hT (coeffs_of_inj (f := T.ext) (g := none) (List.length_eq_zero.mp e))
      exact h (invert_const_ext T a (by omega) hinv)
    have hdeg : (1 : Polynomial K).degree < (val (make_monic T.ext).1).degree := by
      have h2 := natDegree_val (make_monic_ne_none hinv)
      rw [length_coeffs_make_monic hinv] at h2
      rw [Polynomial.degree_one, Polynomial.degree_eq_natDegree hm.ne_zero]
      have : 0 < (val (make_monic T.ext).1).natDegree := by omega
      exact_mod_cast this
    have hdvd : val (make_monic T.ext).1 ∣ (1 + val T.ext * w) - 1 := by
      rw [val_make_monic]
      refine ⟨Polynomial.C (lead_coeff T.ext) * w, ?_⟩
      have hc := lead_coeff_mul_make_monic_snd hinv
      have : Polynomial.C (make_monic T.ext).2 * Polynomial.C (lead_coeff T.ext)
          = (1 : Polynomial K) := by
        rw [← Polynomial.C_mul, mul_comm, hc]; simp
      calc (1 + val T.ext * w) - 1 = val T.ext * w := by ring
        _ = val T.ext * (Polynomial.C (make_monic T.ext).2 *
              Polynomial.C (lead_coeff T.ext)) * w := by rw [this, mul_one]
        _ = _ := by ring
    rw [Polynomial.modByMonic_eq_of_dvd_sub hm hdvd]
    exact (Polynomial.modByMonic_eq_self_iff hm).mpr hdeg

/-! ### Above a level that inverts every nonzero scalar -/

theorem val_mult_true (T : Level K) (f g : elem K)
    (hT : Scalars.invert (lead_coeff T.ext) ≠ 0) :
    val (mult T f g true) = (val f * val g) %ₘ val (make_monic T.ext).1 := by
  have hpos : 0 ≤ degree_of_extension T :=
    (degree_of_extension_nonneg_iff T).mpr (ne_none_of_invert hT)
  unfold mult
  simp only [Bool.true_and]
  rw [if_pos (by simpa using hpos), val_reduce_by_extension T _ hT, val_times]

theorem mult_true_of_transcendental (T : Level K) (f g : elem K) (hT : T.ext = none) :
    mult T f g true = times f g := by
  have hneg : ¬ 0 ≤ degree_of_extension T := by
    rw [degree_of_extension_nonneg_iff]; simpa using hT
  unfold mult
  simp only [Bool.true_and]
  rw [if_neg (by simpa using hneg)]

/-! ### The identity with reduced products, above a level that inverts every nonzero scalar -/

theorem nontrivial_of_ne_none {f : elem K} (h : f ≠ none) : Nontrivial K :=
  ⟨⟨lead_coeff f, 0, lead_coeff_ne_zero h⟩⟩

theorem length_add_coeffs_le (f g : List K) :
    (add_coeffs f g).length ≤ max f.length g.length := by
  induction f generalizing g with
  | nil => simp [add_coeffs]
  | cons a f ih =>
    cases g with
    | nil => simp [add_coeffs]
    | cons b g =>
      simp only [add_coeffs, List.length_cons]
      have := ih g
      omega

theorem is_reduced_iff (T : Level K) (f : elem K) :
    is_reduced T f ↔ T.ext = none ∨ (coeffs_of f).length < (coeffs_of T.ext).length := by
  unfold is_reduced
  constructor
  · rintro (h | h)
    · left
      by_contra hne
      have := (degree_of_extension_nonneg_iff T).mpr hne
      omega
    · right
      unfold degree_of_extension degree at h
      omega
  · rintro (h | h)
    · left
      have : ¬ 0 ≤ degree_of_extension T := by
        rw [degree_of_extension_nonneg_iff]; simpa using h
      omega
    · right
      unfold degree_of_extension degree
      omega

theorem is_reduced_none (T : Level K) : is_reduced T none := by
  rw [is_reduced_iff]
  by_cases h : T.ext = none
  · exact Or.inl h
  · right
    have : coeffs_of T.ext ≠ [] := fun e => h (coeffs_of_inj (f := T.ext) (g := none) e)
    exact List.length_pos.mpr this

theorem is_reduced_add_in_place (T : Level K) {f g : elem K} (hf : is_reduced T f)
    (hg : is_reduced T g) : is_reduced T (add_in_place f g) := by
  rw [is_reduced_iff] at hf hg ⊢
  rcases hf with hf | hf
  · exact Or.inl hf
  · rcases hg with hg | hg
    · exact Or.inl hg
    · right
      have h1 := length_coeffs_of_of_coeffs_le (add_coeffs (coeffs_of f) (coeffs_of g))
      have h2 := length_add_coeffs_le (coeffs_of f) (coeffs_of g)
      unfold add_in_place
      omega

theorem is_reduced_negate_in_place (T : Level K) {f : elem K} (hf : is_reduced T f) :
    is_reduced T (negate_in_place f) := by
  rw [is_reduced_iff] at hf ⊢
  rcases hf with hf | hf
  · exact Or.inl hf
  · right
    have h1 := length_coeffs_of_of_coeffs_le ((coeffs_of f).map (fun a => -a))
    rw [List.length_map] at h1
    unfold negate_in_place
    omega

theorem length_mult_by_coeff_le (f : elem K) (b : K) :
    (coeffs_of (mult_by_coeff f b)).length ≤ (coeffs_of f).length := by
  have h1 := length_coeffs_of_of_coeffs_le ((coeffs_of f).map (fun a => a * b))
  rw [List.length_map] at h1
  exact h1

/-- Every result of a multiplication with reduction is in reduced form. -/
theorem is_reduced_mult (T : Level K) (f g : elem K) : is_reduced T (mult T f g true) := by
  rw [is_reduced_iff]
  by_cases hT : T.ext = none
  · exact Or.inl hT
  · right
    have hpos : 0 ≤ degree_of_extension T := (degree_of_extension_nonneg_iff T).mpr hT
    have hlen : 0 < (coeffs_of T.ext).length :=
      List.length_pos.mpr (fun e => hT (coeffs_of_inj (f := T.ext) (g := none) e))
    unfold mult
    simp only [Bool.true_and]
    rw [if_pos (by simpa using hpos)]
    by_cases hinv : Scalars.invert (lead_coeff T.ext) = 0
    · rw [reduce_by_extension_of_not_invertible T _ hinv hT]
      exact hlen
    · obtain ⟨_, h2⟩ := division_in_place_monic_spec
        (mult_by_coeff (times f g) (make_monic T.ext).2) (make_monic T.ext).1
        (monic_make_monic hinv) (make_monic_ne_none hinv)
      rw [length_coeffs_make_monic hinv] at h2
      have h3 := length_mult_by_coeff_le
        (division_in_place_monic (mult_by_coeff (times f g) (make_monic T.ext).2)
          (make_monic T.ext).1).1 (lead_coeff T.ext)
      unfold reduce_by_extension
      simp only
      omega


/-! ### The result of `invert` is in reduced form -/

theorem length_subtract_in_place_le (f g : elem K) :
    (coeffs_of (subtract_in_place f g)).length
      ≤ max (coeffs_of f).length (coeffs_of g).length := by
  have h1 := length_coeffs_of_of_coeffs_le
    (add_coeffs (coeffs_of f) ((coeffs_of g).map (fun a => -a)))
  have h2 := length_add_coeffs_le (coeffs_of f) ((coeffs_of g).map (fun a => -a))
  rw [List.length_map] at h2
  unfold subtract_in_place
  omega

theorem length_times_le (f g : elem K) :
    (coeffs_of (times f g)).length = 0 ∨
      ((coeffs_of f).length ≠ 0 ∧ (coeffs_of g).length ≠ 0 ∧
        (coeffs_of (times f g)).length + 1 ≤ (coeffs_of f).length + (coeffs_of g).length) := by
  have h1 := length_coeffs_of_of_coeffs_le (conv_coeffs (coeffs_of f) (coeffs_of g))
  unfold times
  by_cases h : coeffs_of f = [] ∨ coeffs_of g = []
  · left
    have : conv_coeffs (coeffs_of f) (coeffs_of g) = [] := by
      unfold conv_coeffs; rw [if_pos h]
    rw [this] at h1 ⊢
    exact Nat.le_zero.mp h1
  · right
    push_neg at h
    have hf := List.length_pos.mpr h.1
    have hg := List.length_pos.mpr h.2
    have : (conv_coeffs (coeffs_of f) (coeffs_of g)).length
        = (coeffs_of f).length + (coeffs_of g).length - 1 := by
      unfold conv_coeffs
      rw [if_neg (by push_neg; exact h)]
      simp
    omega

theorem length_coeffs_of_eq_zero_iff (f : elem K) : (coeffs_of f).length = 0 ↔ f = none := by
  constructor
  · intro h
    exact coeffs_of_inj (f := f) (g := none) (List.length_eq_zero.mp h)
  · intro h
    rw [h]; rfl

theorem val_division_in_place_monic_quot (f g : elem K) (hg : (val g).Monic) (hne : g ≠ none) :
    val (division_in_place_monic f g).2 = val f /ₘ val g := by
  obtain ⟨h1, h2⟩ := division_in_place_monic_spec f g hg hne
  have h3 : val (division_in_place_monic f g).1 + val g * val (division_in_place_monic f g).2
      = val f := by
    rw [add_comm, mul_comm]; exact h1.symm
  exact (Polynomial.div_modByMonic_unique (val (division_in_place_monic f g).2)
    (val (division_in_place_monic f g).1) hg ⟨h3, degree_val_lt_of_length_lt hne h2⟩).1.symm

/-- The quotient of a successful division is zero, or its degree is the difference of the
degrees of dividend and divisor. -/
theorem length_quotient_le (f g : elem K) (h : Scalars.invert (lead_coeff g) ≠ 0) :
    (coeffs_of (division_in_place f g).2.2).length = 0 ∨
      ((coeffs_of g).length ≤ (coeffs_of f).length ∧
        (coeffs_of (division_in_place f g).2.2).length + (coeffs_of g).length
          ≤ (coeffs_of f).length + 1) := by
  haveI := nontrivial_of_invert h
  have hz : ¬ (DPoly.is_zero g = true ∨ Scalars.invert (lead_coeff g) = 0) := by
    rintro (e | e)
    · exact ne_none_of_invert h ((is_zero_iff g).mp e)
    · exact h e
  have hm := monic_make_monic h
  have hne := make_monic_ne_none h
  have hq := val_division_in_place_monic_quot f (make_monic g).1 hm hne
  have hle := length_mult_by_coeff_le (division_in_place_monic f (make_monic g).1).2
    (make_monic g).2
  have hgl := length_coeffs_make_monic h
  have hgn := natDegree_val hne
  rw [division_in_place, if_neg hz]
  simp only
  by_cases hq0 : (division_in_place_monic f (make_monic g).1).2 = none
  · left
    rw [hq0]
    rfl
  · right
    have hqn := natDegree_val hq0
    rw [hq, Polynomial.natDegree_divByMonic _ hm] at hqn
    have hqv : val f /ₘ val (make_monic g).1 ≠ 0 := by
      rw [← hq]
      exact fun e => hq0 ((val_eq_zero_iff _).mp e)
    have hdeg : ¬ (val f).degree < (val (make_monic g).1).degree := fun e =>
      hqv ((Polynomial.divByMonic_eq_zero_iff hm).mpr e)
    have hf0 : f ≠ none := by
      intro e
      apply hqv
      rw [e, val_none, Polynomial.zero_divByMonic]
    have hfn := natDegree_val hf0
    have hnat : (val (make_monic g).1).natDegree ≤ (val f).natDegree := by
      by_contra hlt
      apply hdeg
      exact Polynomial.degree_lt_degree (not_le.mp hlt)
    omega

/-- The state of the extended Euclidean algorithm run on a reduced `a` and the defining
polynomial, whose length is `N`: the co-factors `s0`, `s1` stay short. -/
def cofactor_bound (N : Nat) (b : Bezout K) : Prop :=
  ((coeffs_of b.s0).length = 0 ∨ (coeffs_of b.s0).length + (coeffs_of b.r0).length ≤ N) ∧
  ((coeffs_of b.s1).length = 0 ∨ (coeffs_of b.s1).length + (coeffs_of b.r0).length ≤ N + 1) ∧
  ((coeffs_of b.r1).length < (coeffs_of b.r0).length ∨
    ((coeffs_of b.s1).length = 0 ∧
      ((coeffs_of b.s0).length = 0 ∨ (coeffs_of b.s0).length + (coeffs_of b.r1).length ≤ N + 1)))

theorem gcd_coefficients_loop_bound (N n : Nat) (b : Bezout K) (h : cofactor_bound N b) :
    (coeffs_of (gcd_coefficients_loop n b).s0).length = 0 ∨
      (coeffs_of (gcd_coefficients_loop n b).s0).length
        + (coeffs_of (gcd_coefficients_loop n b).r0).length ≤ N := by
  induction n generalizing b with
  | zero => exact h.1
  | succ n ih =>
    obtain ⟨hA, hB, hC⟩ := h
    rw [gcd_coefficients_loop]
    split
    · exact hA
    · simp only
      split
      · next hz hd =>
        have hinv := (division_in_place_fst b.r0 b.r1).mp hd
        obtain ⟨_, _, hr⟩ := division_in_place_spec b.r0 b.r1 hinv
        have hq := length_quotient_le b.r0 b.r1 hinv
        have ht := length_times_le (division_in_place b.r0 b.r1).2.2 b.s1
        have hs := length_subtract_in_place_le b.s0
          (times (division_in_place b.r0 b.r1).2.2 b.s1)
        rw [le_max_iff] at hs
        apply ih
        refine ⟨?_, ?_, ?_⟩
        · show (coeffs_of b.s1).length = 0 ∨ (coeffs_of b.s1).length + (coeffs_of b.r1).length ≤ N
          omega
        · show (coeffs_of (subtract_in_place b.s0
              (times (division_in_place b.r0 b.r1).2.2 b.s1))).length = 0 ∨
            (coeffs_of (subtract_in_place b.s0
              (times (division_in_place b.r0 b.r1).2.2 b.s1))).length
              + (coeffs_of b.r1).length ≤ N + 1
          omega
        · left
          exact hr
      · show (coeffs_of b.s1).length = 0 ∨ (coeffs_of b.s1).length + (coeffs_of b.r1).length ≤ N
        omega

/-- The inverse of an element in reduced form is in reduced form. -/
theorem is_reduced_invert (T : Level K) {a : elem K} (ha : is_reduced T a) :
    is_reduced T (invert T a) := by
  rw [is_reduced_iff] at ha ⊢
  rcases ha with ha | ha
  · exact Or.inl ha
  · right
    have hpos : 0 < (coeffs_of T.ext).length := by omega
    unfold invert
    simp only
    split
    · next hd =>
      have hb := gcd_coefficients_loop_bound (coeffs_of T.ext).length
        ((coeffs_of T.ext).length + 1) ⟨a, T.ext, from_int 1, none, none, from_int 1⟩
        (by
          have h1 : (coeffs_of (from_int 1 : elem K)).length ≤ 1 := by
            have := length_coeffs_of_of_coeffs_le [((1 : Int) : K)]
            simpa [from_int] using this
          refine ⟨?_, Or.inl rfl, Or.inr ⟨rfl, ?_⟩⟩
          · show (coeffs_of (from_int 1 : elem K)).length = 0 ∨
              (coeffs_of (from_int 1 : elem K)).length + (coeffs_of a).length
                ≤ (coeffs_of T.ext).length
            omega
          · show (coeffs_of (from_int 1 : elem K)).length = 0 ∨
              (coeffs_of (from_int 1 : elem K)).length + (coeffs_of T.ext).length
                ≤ (coeffs_of T.ext).length + 1
            omega)
      have hlen : (coeffs_of (gcd_coefficients a T.ext).1).length = 1 := by
        unfold degree at hd; omega
      have hr0 : (coeffs_of (gcd_coefficients_loop ((coeffs_of T.ext).length + 1)
          ⟨a, T.ext, from_int 1, none, none, from_int 1⟩).r0).length ≠ 0 := by
        intro e
        rw [length_coeffs_of_eq_zero_iff] at e
        have : (gcd_coefficients a T.ext).1 = none := by
          simp only [gcd_coefficients, e]
          rfl
        rw [this] at hlen
        simp [coeffs_of] at hlen
      have h1 := length_mult_by_coeff_le (gcd_coefficients a T.ext).2.1
        (Scalars.invert (lead_coeff (gcd_coefficients a T.ext).1))
      have h2 : (coeffs_of (gcd_coefficients a T.ext).2.1).length
          ≤ (coeffs_of (gcd_coefficients_loop ((coeffs_of T.ext).length + 1)
            ⟨a, T.ext, from_int 1, none, none, from_int 1⟩).s0).length := by
        simp only [gcd_coefficients]
        exact length_mult_by_coeff_le _ _
      omega
    · exact hpos
/-- Modelled from the spec: the elements of a level as the next level holds them for
coefficients: elements in reduced form, with the arithmetic of the level (section
4.3: a coefficient operation of level N is an operation of level N-1, the product being
"reduced modulo" the defining polynomial). -/
structure Reduced (T : Level K) where
  elt : elem K
  reduced : is_reduced T elt

theorem Reduced.eq_of_elt {T : Level K} {a b : Reduced T} (h : a.elt = b.elt) : a = b := by
  cases a; cases b; simp only at h; subst h; rfl

instance (T : Level K) : DecidableEq (Reduced T) := fun a b =>
  decidable_of_iff (a.elt = b.elt) ⟨Reduced.eq_of_elt, fun h => by rw [h]⟩

/-- Modelled from the spec: the zero of a level is the canonical zero. -/
instance (T : Level K) : Zero (Reduced T) := ⟨⟨none, is_reduced_none T⟩⟩

/-- Modelled from the spec: the one of a level is `from_int(1)`, in reduced form. -/
instance (T : Level K) : One (Reduced T) :=
  ⟨⟨mult T (from_int 1) (from_int 1) true, is_reduced_mult T _ _⟩⟩

/-- Modelled from the spec: the sum of two elements of a level is `add_in_place` on a
copy. -/
instance (T : Level K) : Add (Reduced T) :=
  ⟨fun a b => ⟨add_in_place (copy a.elt) b.elt, is_reduced_add_in_place T a.reduced b.reduced⟩⟩

/-- Modelled from the spec: the negative of an element of a level is `negate_in_place` on
a copy. -/
instance (T : Level K) : Neg (Reduced T) :=
  ⟨fun a => ⟨negate_in_place (copy a.elt), is_reduced_negate_in_place T a.reduced⟩⟩

/-- Modelled from the spec: the product of two elements of a level is `mult` with
reduction by the extension. -/
instance (T : Level K) : Mul (Reduced T) :=
  ⟨fun a b => ⟨mult T a.elt b.elt true, is_reduced_mult T _ _⟩⟩

/-- Modelled from the spec: the order of the elements of a level, into which `compare` of
the next level recurses (section 4.1, "using the level-below order"). -/
def Reduced.cmp (T : Level K) (a b : Reduced T) : Int := compare T.cmp a.elt b.elt

/-- Modelled from the spec: the element of a level with the given coefficients, in reduced
form. -/
def Reduced.of_coeffs (T : Level K) (l : List K) : Reduced T :=
  ⟨mult T (Tower.of_coeffs l) (from_int 1) true, is_reduced_mult T _ _⟩

/-- The class of an element modulo the defining polynomial of its level (used in proofs
only). -/
noncomputable def Reduced.cls {T : Level K} (a : Reduced T) :
    Polynomial K ⧸ Ideal.span {val T.ext} :=
  Ideal.Quotient.mk _ (val a.elt)

theorem cls_mult (T : Level K) (hT : well_formed T) (f g : elem K) :
    Ideal.Quotient.mk (Ideal.span {val T.ext}) (val (mult T f g true))
      = Ideal.Quotient.mk _ (val f) * Ideal.Quotient.mk _ (val g) := by
  rw [← map_mul]
  rcases hT with hT | hT
  · rw [mult_true_of_transcendental T f g hT, val_times]
  · rw [val_mult_true T f g hT, Ideal.Quotient.eq, Ideal.mem_span_singleton]
    have hm := monic_make_monic hT
    have h1 := Polynomial.modByMonic_add_div (val f * val g) hm
    refine ⟨-(Polynomial.C (make_monic T.ext).2 * (val f * val g /ₘ val (make_monic T.ext).1)), ?_⟩
    rw [val_make_monic] at h1 ⊢
    rw [← sub_eq_zero]
    rw [← sub_eq_zero] at h1
    rw [← h1]
    ring

theorem Reduced.cls_injective {T : Level K} (hT : well_formed T) {a b : Reduced T}
    (h : a.cls = b.cls) : a = b := by
  apply Reduced.eq_of_elt
  apply val_inj
  rw [Reduced.cls, Reduced.cls, Ideal.Quotient.eq, Ideal.mem_span_singleton] at h
  have ha := (is_reduced_iff T a.elt).mp a.reduced
  have hb := (is_reduced_iff T b.elt).mp b.reduced
  rcases hT with hT | hT
  · rw [hT, val_none, zero_dvd_iff] at h
    exact sub_eq_zero.mp h
  · have hne : T.ext ≠ none := ne_none_of_invert hT
    haveI := nontrivial_of_invert hT
    have ha2 : (coeffs_of a.elt).length < (coeffs_of T.ext).length := by
      rcases ha with ha | ha
      · exact absurd ha hne
      · exact ha
    have hb2 : (coeffs_of b.elt).length < (coeffs_of T.ext).length := by
      rcases hb with hb | hb
      · exact absurd hb hne
      · exact hb
    have hm := monic_make_monic hT
    by_contra hab
    have hd : val a.elt - val b.elt ≠ 0 := fun e => hab (sub_eq_zero.mp e)
    have hdeg : (val a.elt - val b.elt).degree < (val (make_monic T.ext).1).degree := by
      rw [val_make_monic, Polynomial.degree_eq_natDegree (p := val T.ext * _)]
      · have h3 : (val T.ext).leadingCoeff * (make_monic T.ext).2 ≠ 0 := by
          rw [leadingCoeff_val, lead_coeff_mul_make_monic_snd hT]
          exact one_ne_zero
        rw [Polynomial.natDegree_mul_C_eq_of_mul_ne_zero h3]
        have h4 := natDegree_val hne
        refine lt_of_le_of_lt (Polynomial.degree_sub_le _ _) (max_lt ?_ ?_)
        · refine lt_of_lt_of_le (degree_den_lt (coeffs_of a.elt)) ?_
          have : (coeffs_of a.elt).length ≤ (val T.ext).natDegree := by omega
          exact_mod_cast this
        · refine lt_of_lt_of_le (degree_den_lt (coeffs_of b.elt)) ?_
          have : (coeffs_of b.elt).length ≤ (val T.ext).natDegree := by omega
          exact_mod_cast this
      · rw [← val_make_monic]
        exact hm.ne_zero
    apply Polynomial.Monic.not_dvd_of_degree_lt hm hd hdeg
    obtain ⟨q, hq⟩ := h
    refine ⟨Polynomial.C (lead_coeff T.ext) * q, ?_⟩
    rw [hq, val_make_monic]
    have hc := lead_coeff_mul_make_monic_snd hT
    have : Polynomial.C (make_monic T.ext).2 * Polynomial.C (lead_coeff T.ext)
        = (1 : Polynomial K) := by
      rw [← Polynomial.C_mul, mul_comm, hc]; simp
    calc val T.ext * q = val T.ext * (Polynomial.C (make_monic T.ext).2 *
          Polynomial.C (lead_coeff T.ext)) * q := by rw [this, mul_one]
      _ = _ := by ring

theorem Reduced.cls_zero (T : Level K) : (0 : Reduced T).cls = 0 := by
  show Ideal.Quotient.mk _ (val (none : elem K)) = 0
  rw [val_none, map_zero]

theorem Reduced.cls_add {T : Level K} (a b : Reduced T) : (a + b).cls = a.cls + b.cls := by
  show Ideal.Quotient.mk _ (val (add_in_place a.elt b.elt)) = _
  rw [val_add_in_place, map_add]
  rfl

theorem Reduced.cls_neg {T : Level K} (a : Reduced T) : (-a).cls = -a.cls := by
  show Ideal.Quotient.mk _ (val (negate_in_place a.elt)) = _
  rw [val_negate_in_place, map_neg]
  rfl

theorem Reduced.cls_mul {T : Level K} (hT : well_formed T) (a b : Reduced T) :
    (a * b).cls = a.cls * b.cls :=
  cls_mult T hT a.elt b.elt

theorem Reduced.cls_one {T : Level K} (hT : well_formed T) : (1 : Reduced T).cls = 1 := by
  show Ideal.Quotient.mk _ (val (mult T (from_int 1) (from_int 1) true)) = 1
  rw [cls_mult T hT, val_one]
  simp

/-- The inversion contract for the elements of a level as scalars: a nonzero result of
`invert` multiplies to one. -/
theorem Reduced.mul_invert_eq_one {T : Level K} (hT : well_formed T) (a : Reduced T)
    (h : (⟨invert T a.elt, is_reduced_invert T a.reduced⟩ : Reduced T) ≠ 0) :
    a * (⟨invert T a.elt, is_reduced_invert T a.reduced⟩ : Reduced T) = 1 := by
  have hi : invert T a.elt ≠ none := by
    intro e
    apply h
    exact Reduced.eq_of_elt e
  obtain ⟨w, hw⟩ := val_invert T a.elt hi
  apply Reduced.cls_injective hT
  rw [Reduced.cls_mul hT, Reduced.cls_one hT, Reduced.cls, Reduced.cls, ← map_mul, hw, map_add,
    map_one, map_mul]
  have : Ideal.Quotient.mk (Ideal.span {val T.ext}) (val T.ext) = 0 :=
    Ideal.Quotient.eq_zero_iff_mem.mpr (Ideal.mem_span_singleton_self _)
  rw [this, zero_mul, add_zero]

/-- Modelled from the spec: the elements of a level whose defining polynomial is absent or
has a leading coefficient that the level below inverts are the scalars of the next level:
they form a commutative ring under `add_in_place`, `negate_in_place` and `mult` with
reduction, and their `invert` is the `DPoly::invert` of the level. -/
instance Reduced.scalars (T : Level K) [hT : Fact (well_formed T)] : Scalars (Reduced T) where
  toCommRing := CommRing.ofMinimalAxioms
    (fun a b c => Reduced.cls_injective hT.out (by simp only [Reduced.cls_add]; ring))
    (fun a => Reduced.cls_injective hT.out (by simp only [Reduced.cls_add, Reduced.cls_zero]; ring))
    (fun a => Reduced.cls_injective hT.out
      (by simp only [Reduced.cls_add, Reduced.cls_neg, Reduced.cls_zero]; ring))
    (fun a b c => Reduced.cls_injective hT.out (by simp only [Reduced.cls_mul hT.out]; ring))
    (fun a b => Reduced.cls_injective hT.out (by simp only [Reduced.cls_mul hT.out]; ring))
    (fun a => Reduced.cls_injective hT.out
      (by simp only [Reduced.cls_mul hT.out, Reduced.cls_one hT.out]; ring))
    (fun a b c => Reduced.cls_injective hT.out
      (by simp only [Reduced.cls_mul hT.out, Reduced.cls_add]; ring))
  invert := fun a => ⟨invert T a.elt, is_reduced_invert T a.reduced⟩
  mul_invert := Reduced.mul_invert_eq_one hT.out

/-! ### The claims on the modelled tower arithmetic -/

/-- C1: at the level bound by the adapter, whatever the levels below are, whenever
`DPoly::invert(level, a)` returns a nonzero element `b` (then `DRing::invert` returns
`true` and stores `b`), the product `DPoly::mult(level, a, b, true)` is the element one,
and `is_one` holds of it. -/
theorem invert_mult_is_one (T : Level K) (level P : Int) (a b : elem K)
    (hb : (dpoly T).invert level a = b) (hne : b ≠ none) :
    (DRing.invert (dring T level P) a).val = (true, b) ∧
      (dpoly T).mult level a b true = (dpoly T).from_int level 1 ∧
      (dpoly T).is_one level ((dpoly T).mult level a b true) = true := by
  have hb2 : invert T a = b := hb
  have hne2 : invert T a ≠ none := by rw [hb2]; exact hne
  have hm : mult T a b true = from_int 1 := by
    rw [← hb2]; exact mult_invert T a hne2
  haveI := nontrivial_of_ne_none hne
  refine ⟨?_, hm, ?_⟩
  · have hs : (dring T level P).D.invert (dring T level P).level a = b := hb
    simp only [DRing.invert, hs]
    cases b with
    | none => exact absurd rfl hne
    | some s => rfl
  · show is_one (mult T a b true) = true
    rw [hm]
    exact is_one_from_int_one

end Tower
/-! ## Part 5: scenarios

### The scenario of the specification: characteristic 5, one extension by `t^2 + 2` -/

/-- Modelled from the spec: the order at the innermost level, "numeric comparison" of the
representatives in `[0, p)` (section 4.1). -/
def compare_scalar {p : Nat} (a b : ZMod p) : Int :=
  if a.val < b.val then -1 else if b.val < a.val then 1 else 0

/-- The level of the specification scenario (section 8): scalars in the prime field of
characteristic 5, defining polynomial `t^2 + 2`. -/
def GF25 : Tower.Level (ZMod 5) := ⟨Tower.of_coeffs [2, 0, 1], compare_scalar⟩

/-- The adapter over the scenario level. -/
def GF25_ring : DRing (Tower.poly_struct (ZMod 5)) := Tower.dring GF25 0 5

/-- The element `t` of the scenario. -/
def GF25_t : Tower.elem (ZMod 5) := Tower.of_coeffs [0, 1]

/-- The element `2 t` of the scenario. -/
def GF25_2t : Tower.elem (ZMod 5) := Tower.of_coeffs [0, 2]

/-- The constant element `c` of the scenario. -/
def GF25_const (c : Int) : Tower.elem (ZMod 5) := Tower.from_int c

/-- The level of characteristic 3 defined by `t^2 + 2`. -/
def R9 : Tower.Level (ZMod 3) := ⟨Tower.of_coeffs [2, 0, 1], compare_scalar⟩

instance R9_well_formed : Fact (Tower.well_formed R9) := ⟨by decide!⟩

/-- The level above `R9` defined by `x^2 + t`. -/
def R9_top : Tower.Level (Tower.Reduced R9) :=
  ⟨Tower.of_coeffs [Tower.Reduced.of_coeffs R9 [0, 1], 0, 1], Tower.Reduced.cmp R9⟩

/-- The element `x + (1 + t)` of the level `R9_top`; its constant term is a zero divisor of
the level below. -/
def R9_a : Tower.elem (Tower.Reduced R9) :=
  Tower.of_coeffs [Tower.Reduced.of_coeffs R9 [1, 1], 1]

/-- The element `x + (2 + 2 t)` of the level `R9_top`. -/
def R9_b : Tower.elem (Tower.Reduced R9) :=
  Tower.of_coeffs [Tower.Reduced.of_coeffs R9 [2, 2], 1]

/-! ### A level above a transcendental level -/

/-- The transcendental level of characteristic 5: no defining polynomial, its elements are
the polynomials in `t`. -/
def F5t : Tower.Level (ZMod 5) := ⟨none, compare_scalar⟩

instance F5t_well_formed : Fact (Tower.well_formed F5t) := ⟨by decide⟩

/-- The level above `F5t` defined by `x^2 + t x + 4`. -/
def F5t_top : Tower.Level (Tower.Reduced F5t) :=
  ⟨Tower.of_coeffs [Tower.Reduced.of_coeffs F5t [4], Tower.Reduced.of_coeffs F5t [0, 1], 1],
    Tower.Reduced.cmp F5t⟩

/-- The element `x` of the level `F5t_top`. -/
def F5t_x : Tower.elem (Tower.Reduced F5t) := Tower.of_coeffs [0, 1]

/-- The element `x + t` of the level `F5t_top`. -/
def F5t_xt : Tower.elem (Tower.Reduced F5t) :=
  Tower.of_coeffs [Tower.Reduced.of_coeffs F5t [0, 1], 1]

/-! ## Part 6: the claims on the adapter `DRing` and the witnesses -/
/-- C1, at three levels.  At the scenario level, `t` is invertible modulo `t^2 + 2` in
characteristic 5, its inverse is `2 t`.  Above the level `R9`, which is not a field,
`x + (1 + t)` has the inverse `x + (2 + 2 t)` modulo `x^2 + t`.  Above the transcendental
level `F5t`, `x` has the inverse `x + t` modulo `x^2 + t x + 4`. -/
theorem invert_mult_is_one_witness :
    ((Tower.dpoly GF25).invert 0 GF25_t = GF25_2t ∧ GF25_2t ≠ none ∧
      ((DRing.invert (Tower.dring GF25 0 5) GF25_t).val = (true, GF25_2t) ∧
        (Tower.dpoly GF25).mult 0 GF25_t GF25_2t true = (Tower.dpoly GF25).from_int 0 1 ∧
        (Tower.dpoly GF25).is_one 0 ((Tower.dpoly GF25).mult 0 GF25_t GF25_2t true) = true)) ∧
    ((Tower.dpoly R9_top).invert 1 R9_a = R9_b ∧ R9_b ≠ none ∧
      ((DRing.invert (Tower.dring R9_top 1 3) R9_a).val = (true, R9_b) ∧
        (Tower.dpoly R9_top).mult 1 R9_a R9_b true = (Tower.dpoly R9_top).from_int 1 1 ∧
        (Tower.dpoly R9_top).is_one 1 ((Tower.dpoly R9_top).mult 1 R9_a R9_b true) = true)) ∧
    ((Tower.dpoly F5t_top).invert 1 F5t_x = F5t_xt ∧ F5t_xt ≠ none ∧
      ((DRing.invert (Tower.dring F5t_top 1 5) F5t_x).val = (true, F5t_xt) ∧
        (Tower.dpoly F5t_top).mult 1 F5t_x F5t_xt true = (Tower.dpoly F5t_top).from_int 1 1 ∧
        (Tower.dpoly F5t_top).is_one 1
          ((Tower.dpoly F5t_top).mult 1 F5t_x F5t_xt true) = true)) :=
  ⟨⟨by decide!, by decide,
      Tower.invert_mult_is_one GF25 0 5 GF25_t GF25_2t (by decide!) (by decide)⟩,
    ⟨by decide!, by decide!,
      Tower.invert_mult_is_one R9_top 1 3 R9_a R9_b (by decide!) (by decide!)⟩,
    ⟨by decide!, by decide!,
      Tower.invert_mult_is_one F5t_top 1 5 F5t_x F5t_xt (by decide!) (by decide!)⟩⟩

/-- C3, at a failing input: in the field of 25 elements the adapter stores `1 * 2 = 2` as
`divide(1, 2)`, although `2` is invertible; multiplying back by `2` gives `4`, not `1`. -/
theorem divide_stores_product :
    (DRing.invert GF25_ring (GF25_const 2)).val.1 = true ∧
      (DRing.divide GF25_ring (GF25_const 1) (GF25_const 2)).val = GF25_const 2 ∧
      (DRing.mult GF25_ring (DRing.divide GF25_ring (GF25_const 1) (GF25_const 2)).val
        (GF25_const 2)).val = GF25_const 4 ∧
      (DRing.mult GF25_ring (DRing.divide GF25_ring (GF25_const 1) (GF25_const 2)).val
        (GF25_const 2)).val ≠ GF25_const 1 := by
  decide!

/-- C4: `DRing::invert` stores exactly the value `DPoly::invert(level, a)` returned; it
returns `true` exactly when the stored element is nonzero, and `false` exactly when
`DPoly::invert` returned the canonical zero, in which case the stored element is the
canonical zero; its only call is the one to `DPoly::invert`. -/
theorem invert_flag_iff {S : Type} (R : DRing S) (a : poly S) :
    (DRing.invert R a).val.2 = R.D.invert R.level a ∧
      ((DRing.invert R a).val.1 = true ↔ (DRing.invert R a).val.2 ≠ none) ∧
      ((DRing.invert R a).val.1 = false ↔ R.D.invert R.level a = none) ∧
      ((DRing.invert R a).val.1 = false → (DRing.invert R a).val.2 = none) ∧
      ((DRing.invert R a).val.1 = true ↔ DRing.is_zero R (DRing.invert R a).val.2 = false) ∧
      (DRing.invert R a).calls = [DCall.invert] := by
  simp only [DRing.invert, DRing.is_zero]
  cases R.D.invert R.level a <;> simp

/-- A value in the range of `long` is not changed by the wrap-around. -/
theorem wrap_long_of_in_long {x : Int} (h : in_long x) : wrap_long x = x := by
  unfold in_long LONG_MIN LONG_MAX LONG_BITS at h
  unfold wrap_long LONG_MIN LONG_BITS
  norm_num at h ⊢
  rw [Int.emod_eq_of_lt (by omega) (by omega)]
  omega

/-- The truncating remainder by a positive `P` lies strictly between `-P` and `P` and has
the sign of the dividend. -/
theorem tmod_bounds (r P : Int) (hP : 0 < P) :
    -P < Int.tmod r P ∧ Int.tmod r P < P ∧ (0 ≤ r → 0 ≤ Int.tmod r P) ∧
      (r < 0 → Int.tmod r P ≤ 0) := by
  obtain ⟨n, rfl⟩ := Int.eq_ofNat_of_zero_le hP.le
  have hn : 0 < n := by exact_mod_cast hP
  cases r with
  | ofNat m =>
    have h1 : Int.tmod (Int.ofNat m) (n : Int) = ((m % n : Nat) : Int) := rfl
    have h2 := Nat.mod_lt m hn
    rw [h1]
    refine ⟨by omega, by omega, fun _ => by omega, fun h => ?_⟩
    have : (0 : Int) ≤ Int.ofNat m := Int.ofNat_nonneg m
    omega
  | negSucc m =>
    have h1 : Int.tmod (Int.negSucc m) (n : Int) = -(((m + 1) % n : Nat) : Int) := rfl
    have h2 := Nat.mod_lt (m + 1) hn
    rw [h1]
    refine ⟨by omega, by omega, fun h => ?_, fun _ => by omega⟩
    have : Int.negSucc m < 0 := Int.negSucc_lt_zero m
    omega

/-- C5: for every `long` value `r` and every characteristic `P > 0`, `set_from_int` calls
`DPoly::from_int(level, c)` with `0 <= c < P` and `c ≡ r (mod P)` (indeed `c` is the
least nonnegative residue of `r`), so the precondition of `from_int` holds; neither the
truncating remainder `r % P` nor the fix-up `r += P` leaves the range of `long`. -/
theorem set_from_int_reduced {S : Type} (R : DRing S) (r : Int)
    (hP : 0 < R.P) (hPl : in_long R.P) (_hr : in_long r) :
    (DRing.set_from_int R r).val = R.D.from_int R.level (set_from_int_arg R.P r) ∧
      (DRing.set_from_int R r).calls = [DCall.from_int] ∧
      0 ≤ set_from_int_arg R.P r ∧ set_from_int_arg R.P r < R.P ∧
      R.P ∣ set_from_int_arg R.P r - r ∧
      set_from_int_arg R.P r = r % R.P ∧
      in_long (Int.tmod r R.P) ∧ set_from_int_rem R.P r = Int.tmod r R.P ∧
      (set_from_int_rem R.P r < 0 → in_long (set_from_int_rem R.P r + R.P)) ∧
      set_from_int_arg R.P r =
        (if Int.tmod r R.P < 0 then Int.tmod r R.P + R.P else Int.tmod r R.P) := by
  obtain ⟨b1, b2, _, _⟩ := tmod_bounds r R.P hP
  have ht : in_long (Int.tmod r R.P) := by
    unfold in_long at hPl ⊢
    constructor
    · have : LONG_MIN ≤ -LONG_MAX := by unfold LONG_MIN LONG_MAX LONG_BITS; norm_num
      omega
    · omega
  have hrem : set_from_int_rem R.P r = Int.tmod r R.P := wrap_long_of_in_long ht
  have hfix : Int.tmod r R.P < 0 → in_long (Int.tmod r R.P + R.P) := by
    intro hneg
    unfold in_long at hPl ⊢
    constructor
    · have : LONG_MIN ≤ 0 := by unfold LONG_MIN LONG_BITS; norm_num
      omega
    · omega
  have harg : set_from_int_arg R.P r =
      (if Int.tmod r R.P < 0 then Int.tmod r R.P + R.P else Int.tmod r R.P) := by
    unfold set_from_int_arg
    simp only [hrem]
    split
    · next h => exact wrap_long_of_in_long (hfix h)
    · rfl
  have hdvd : R.P ∣ set_from_int_arg R.P r - r := by
    rw [harg, Int.tmod_def]
    split
    · exact ⟨1 - r.tdiv R.P, by ring⟩
    · exact ⟨-r.tdiv R.P, by ring⟩
  have h0 : 0 ≤ set_from_int_arg R.P r := by
    rw [harg]; split <;> omega
  have h1 : set_from_int_arg R.P r < R.P := by
    rw [harg]; split <;> omega
  refine ⟨rfl, rfl, h0, h1, hdvd, ?_, ht, hrem, ?_, harg⟩
  · rw [← Int.emod_eq_of_lt h0 h1]
    exact (Int.emod_eq_emod_iff_emod_sub_eq_zero).mpr (Int.emod_eq_zero_of_dvd hdvd)
  · rw [hrem]; exact hfix

/-- C5, at `r = -7` in characteristic 5: the argument of `from_int` is 3. -/
theorem set_from_int_reduced_witness :
    (0 < GF25_ring.P ∧ in_long GF25_ring.P ∧ in_long (-7)) ∧
      set_from_int_arg GF25_ring.P (-7) = 3 ∧
      ((DRing.set_from_int GF25_ring (-7)).val
          = GF25_ring.D.from_int GF25_ring.level (set_from_int_arg GF25_ring.P (-7)) ∧
        (DRing.set_from_int GF25_ring (-7)).calls = [DCall.from_int] ∧
        0 ≤ set_from_int_arg GF25_ring.P (-7) ∧ set_from_int_arg GF25_ring.P (-7) < GF25_ring.P ∧
        GF25_ring.P ∣ set_from_int_arg GF25_ring.P (-7) - -7 ∧
        set_from_int_arg GF25_ring.P (-7) = -7 % GF25_ring.P ∧
        in_long (Int.tmod (-7) GF25_ring.P) ∧
        set_from_int_rem GF25_ring.P (-7) = Int.tmod (-7) GF25_ring.P ∧
        (set_from_int_rem GF25_ring.P (-7) < 0 →
          in_long (set_from_int_rem GF25_ring.P (-7) + GF25_ring.P)) ∧
        set_from_int_arg GF25_ring.P (-7) =
          (if Int.tmod (-7) GF25_ring.P < 0 then Int.tmod (-7) GF25_ring.P + GF25_ring.P
            else Int.tmod (-7) GF25_ring.P)) :=
  ⟨⟨by decide, by decide, by decide⟩, by decide,
    set_from_int_reduced GF25_ring (-7) (by decide) (by decide) (by decide)⟩

/-- C6: zero is the additive identity of the adapter: `add(result, f, 0)` and
`add(result, 0, f)` store `f` (for `f = 0` they store `0`), and make no call to `DPoly`,
in particular none to `add_in_place`. -/
theorem add_zero_identity {S : Type} (R : DRing S) (f : poly S) :
    (DRing.add R f none).val = f ∧ (DRing.add R none f).val = f ∧
      (DRing.add R none none).val = none ∧
      (DRing.add R f none).calls = [] ∧ (DRing.add R none f).calls = [] ∧
      DCall.add_in_place ∉ (DRing.add R f none).calls ∧
      DCall.add_in_place ∉ (DRing.add R none f).calls := by
  cases f <;> simp [DRing.add]

/-- C7: zero annihilates under the adapter: `mult(result, f, 0)` and `mult(result, 0, f)`
store the canonical zero, and for nonzero `a`, `b` the adapter stores exactly
`DPoly::mult(level, a, b, true)`: the reduction by the extension is always requested. -/
theorem mult_zero_and_reduce {S : Type} (R : DRing S) (f a b : poly S)
    (ha : a ≠ none) (hb : b ≠ none) :
    (DRing.mult R f none).val = none ∧ (DRing.mult R none f).val = none ∧
      DRing.is_zero R (DRing.mult R f none).val = true ∧
      DRing.is_zero R (DRing.mult R none f).val = true ∧
      (DRing.mult R a b).val = R.D.mult R.level a b true := by
  cases a with
  | none => exact absurd rfl ha
  | some x =>
    cases b with
    | none => exact absurd rfl hb
    | some y => cases f <;> simp [DRing.mult, DRing.is_zero]

/-- C7, at the scenario level, with `f = t`, `a = t`, `b = 2 t`. -/
theorem mult_zero_and_reduce_witness :
    (GF25_t ≠ none ∧ GF25_2t ≠ none) ∧
      ((DRing.mult GF25_ring GF25_t none).val = none ∧
        (DRing.mult GF25_ring none GF25_t).val = none ∧
        DRing.is_zero GF25_ring (DRing.mult GF25_ring GF25_t none).val = true ∧
        DRing.is_zero GF25_ring (DRing.mult GF25_ring none GF25_t).val = true ∧
        (DRing.mult GF25_ring GF25_t GF25_2t).val
          = GF25_ring.D.mult GF25_ring.level GF25_t GF25_2t true) :=
  ⟨⟨by decide, by decide⟩,
    mult_zero_and_reduce GF25_ring GF25_t GF25_t GF25_2t (by decide) (by decide)⟩

/-- The adapter never reports opposite signs: whenever `compare(f, g)` is not zero, the
promoted `compare(g, f)` differs from `-compare(f, g)`. -/
theorem compare_never_opposite {S : Type} (R : DRing S) (f g : poly S)
    (h : (DRing.compare R f g).val = true) :
    bool_to_int (DRing.compare R g f).val ≠ -bool_to_int (DRing.compare R f g).val := by
  rw [h]
  cases (DRing.compare R g f).val <;> simp [bool_to_int]

/-- C8, at a failing input: `DPoly::compare` orders the constants 1 and 2 of the scenario
level with opposite signs, the adapter returns `true` (1 as an integer) in both orders, so
`compare(g, f)` is not `-compare(f, g)`. -/
theorem compare_drops_sign :
    (Tower.dpoly GF25).compare 0 (GF25_const 1) (GF25_const 2) = -1 ∧
      (Tower.dpoly GF25).compare 0 (GF25_const 2) (GF25_const 1) = 1 ∧
      (DRing.compare GF25_ring (GF25_const 1) (GF25_const 2)).val = true ∧
      (DRing.compare GF25_ring (GF25_const 2) (GF25_const 1)).val = true ∧
      bool_to_int (DRing.compare GF25_ring (GF25_const 2) (GF25_const 1)).val
        ≠ -bool_to_int (DRing.compare GF25_ring (GF25_const 1) (GF25_const 2)).val := by
  decide!

/-- C9: the conversion of the result of `DPoly::compare` to `bool` maps zero to `false`
(0) and every nonzero result to `true` (nonzero); hence, when `DPoly::compare(level, f, g)`
is zero exactly if `DPoly::is_equal(level, f, g)`, the adapter has
`is_equal(f, g)` iff `compare(f, g) == 0`. -/
theorem is_equal_iff_compare_zero {S : Type} (R : DRing S) (f g : poly S)
    (h : R.D.compare R.level f g = 0 ↔ R.D.is_equal R.level f g = true) :
    ((DRing.is_equal R f g).val = true ↔ bool_to_int (DRing.compare R f g).val = 0) ∧
      (R.D.compare R.level f g = 0 → bool_to_int (DRing.compare R f g).val = 0) ∧
      (R.D.compare R.level f g ≠ 0 → bool_to_int (DRing.compare R f g).val ≠ 0) := by
  simp only [DRing.is_equal, DRing.compare, bool_to_int]
  by_cases hc : R.D.compare R.level f g = 0
  · simp [hc, h.mp hc]
  · have : ¬ R.D.is_equal R.level f g = true := fun e => hc (h.mpr e)
    simp [hc, this]

/-- C9, at the scenario level, with `f = 1`, `g = 2`. -/
theorem is_equal_iff_compare_zero_witness :
    (GF25_ring.D.compare GF25_ring.level (GF25_const 1) (GF25_const 2) = 0 ↔
        GF25_ring.D.is_equal GF25_ring.level (GF25_const 1) (GF25_const 2) = true) ∧
      (((DRing.is_equal GF25_ring (GF25_const 1) (GF25_const 2)).val = true ↔
          bool_to_int (DRing.compare GF25_ring (GF25_const 1) (GF25_const 2)).val = 0) ∧
        (GF25_ring.D.compare GF25_ring.level (GF25_const 1) (GF25_const 2) = 0 →
          bool_to_int (DRing.compare GF25_ring (GF25_const 1) (GF25_const 2)).val = 0) ∧
        (GF25_ring.D.compare GF25_ring.level (GF25_const 1) (GF25_const 2) ≠ 0 →
          bool_to_int (DRing.compare GF25_ring (GF25_const 1) (GF25_const 2)).val ≠ 0)) :=
  ⟨by decide!, is_equal_iff_compare_zero GF25_ring (GF25_const 1) (GF25_const 2) (by decide!)⟩

/-- C10: the canonical zero is the single absent value: `DPoly::is_zero` and
`DRing::is_zero` agree on every handle and hold exactly of the null handle, and after
`DRing::set_zero(result)`, `is_zero(result)` holds. -/
theorem is_zero_iff_null {S : Type} (R : DRing S) (f : poly S) :
    DPoly.is_zero f = DRing.is_zero R f ∧
      (DPoly.is_zero f = true ↔ f = none) ∧ (DRing.is_zero R f = true ↔ f = none) ∧
      (DRing.set_zero R).val = none ∧
      DRing.is_zero R (DRing.set_zero R).val = true ∧
      DPoly.is_zero (DRing.set_zero R).val = true := by
  cases f <;> simp [DPoly.is_zero, DRing.is_zero, DRing.set_zero]

/-- C11, at the failing inputs: with a zero `a` and a handle `b` at address `p` (or the
other way round), `DRing::add` stores the argument handle itself: no `DPoly` call is made,
nothing is copied, and overwriting the struct through the stored `result` overwrites the
struct that the argument points to.  Only with both arguments nonzero does `add` work on
`D.copy(level, a)`. -/
theorem add_stores_argument_handle {V : Type} (R : DRing Addr) (p x y : Addr)
    (m : Heap V) (v : V) :
    (DRing.add R none (some p)).val = some p ∧
      (DRing.add R (some p) none).val = some p ∧
      (DRing.add R none (some p)).calls = [] ∧ (DRing.add R (some p) none).calls = [] ∧
      (∃ q, (DRing.add R none (some p)).val = some q ∧ Heap.write m q v p = v) ∧
      (∃ q, (DRing.add R (some p) none).val = some q ∧ Heap.write m q v p = v) ∧
      (DRing.add R (some x) (some y)).val
        = R.D.add_in_place R.level (R.D.copy R.level (some x)) (some y) ∧
      (DRing.add R (some x) (some y)).calls = [DCall.copy, DCall.add_in_place] := by
  have hw : Heap.write m p v p = v := by simp [Heap.write]
  exact ⟨rfl, rfl, rfl, rfl, ⟨p, rfl, hw⟩, ⟨p, rfl, hw⟩, rfl, rfl⟩

/-- C12: for every pair `a`, `b`, `DRing::divide` stores exactly what `DRing::mult`
stores, and makes the same calls: zero when either argument is zero, otherwise
`DPoly::mult(level, a, b, true)`; it never calls `invert`. -/
theorem divide_same_as_mult {S : Type} (R : DRing S) (a b : poly S) :
    (DRing.divide R a b).val = (DRing.mult R a b).val ∧
      (DRing.divide R a b).calls = (DRing.mult R a b).calls ∧
      (a = none ∨ b = none → (DRing.divide R a b).val = none) ∧
      (a ≠ none → b ≠ none → (DRing.divide R a b).val = R.D.mult R.level a b true) ∧
      DCall.invert ∉ (DRing.divide R a b).calls := by
  refine ⟨rfl, rfl, ?_, ?_, ?_⟩
  · rintro (h | h) <;> cases a <;> cases b <;> simp_all [DRing.divide]
  · intro ha hb
    cases a with
    | none => exact absurd rfl ha
    | some x =>
      cases b with
      | none => exact absurd rfl hb
      | some y => rfl
  · cases a <;> cases b <;> simp [DRing.divide]

/-- C12, at the scenario level: `divide(t, 0)` and `divide(t, 2 t)`. -/
theorem divide_same_as_mult_witness :
    ((GF25_t = none ∨ (none : Tower.elem (ZMod 5)) = none) ∧ GF25_t ≠ none ∧ GF25_2t ≠ none) ∧
      ((DRing.divide GF25_ring GF25_t none).val = (DRing.mult GF25_ring GF25_t none).val ∧
        (DRing.divide GF25_ring GF25_t none).calls = (DRing.mult GF25_ring GF25_t none).calls ∧
        (GF25_t = none ∨ (none : Tower.elem (ZMod 5)) = none →
          (DRing.divide GF25_ring GF25_t none).val = none) ∧
        (GF25_t ≠ none → (none : Tower.elem (ZMod 5)) ≠ none →
          (DRing.divide GF25_ring GF25_t none).val
            = GF25_ring.D.mult GF25_ring.level GF25_t none true) ∧
        DCall.invert ∉ (DRing.divide GF25_ring GF25_t none).calls) ∧
      ((DRing.divide GF25_ring GF25_t GF25_2t).val = (DRing.mult GF25_ring GF25_t GF25_2t).val ∧
        (DRing.divide GF25_ring GF25_t GF25_2t).calls
          = (DRing.mult GF25_ring GF25_t GF25_2t).calls ∧
        (GF25_t = none ∨ GF25_2t = none → (DRing.divide GF25_ring GF25_t GF25_2t).val = none) ∧
        (GF25_t ≠ none → GF25_2t ≠ none →
          (DRing.divide GF25_ring GF25_t GF25_2t).val
            = GF25_ring.D.mult GF25_ring.level GF25_t GF25_2t true) ∧
        DCall.invert ∉ (DRing.divide GF25_ring GF25_t GF25_2t).calls) :=
  ⟨⟨Or.inr rfl, by decide, by decide⟩, divide_same_as_mult GF25_ring GF25_t none,
    divide_same_as_mult GF25_ring GF25_t GF25_2t⟩

/-- C13: `DRing::subtract_multiple(result, a, b)` leaves `result` unchanged, without any
call, when `a` or `b` is zero; otherwise it replaces `result` by
`subtract_in_place(level, result, mult(level, a, b, true))`.  The two branches agree, that
is, the second formula holds for all `a`, `b`, whenever `mult` of a zero argument is zero
and subtracting zero from `result` leaves it as it is. -/
theorem subtract_multiple_branches {S : Type} (R : DRing S) (result a b : poly S) :
    (a = none ∨ b = none →
        (DRing.subtract_multiple R result a b).val = result ∧
          (DRing.subtract_multiple R result a b).calls = []) ∧
      (a ≠ none → b ≠ none →
        (DRing.subtract_multiple R result a b).val
            = R.D.subtract_in_place R.level result (R.D.mult R.level a b true) ∧
          (DRing.subtract_multiple R result a b).calls
            = [DCall.mult, DCall.subtract_in_place]) ∧
      ((a = none ∨ b = none → R.D.mult R.level a b true = none) →
        R.D.subtract_in_place R.level result none = result →
        (DRing.subtract_multiple R result a b).val
          = R.D.subtract_in_place R.level result (R.D.mult R.level a b true)) := by
  have h1 : a = none ∨ b = none →
      (DRing.subtract_multiple R result a b).val = result ∧
        (DRing.subtract_multiple R result a b).calls = [] := by
    rintro (h | h) <;> cases a <;> cases b <;> simp_all [DRing.subtract_multiple]
  have h2 : a ≠ none → b ≠ none →
      (DRing.subtract_multiple R result a b).val
          = R.D.subtract_in_place R.level result (R.D.mult R.level a b true) ∧
        (DRing.subtract_multiple R result a b).calls
          = [DCall.mult, DCall.subtract_in_place] := by
    intro ha hb
    cases a with
    | none => exact absurd rfl ha
    | some x =>
      cases b with
      | none => exact absurd rfl hb
      | some y => exact ⟨rfl, rfl⟩
  refine ⟨h1, h2, ?_⟩
  intro hm hs
  by_cases hz : a = none ∨ b = none
  · rw [(h1 hz).1, hm hz, hs]
  · push_neg at hz
    exact (h2 hz.1 hz.2).1

/-- C13, at the scenario level: `result = 2 t`, `a = t`, `b = 0`, where the modelled
`mult(t, 0)` is zero and subtracting zero leaves `2 t`; and `result = 2 t`, `a = t`,
`b = 2 t`, where `result` becomes `2 t - 1`. -/
theorem subtract_multiple_branches_witness :
    ((GF25_t = none ∨ (none : Tower.elem (ZMod 5)) = none) ∧
        (GF25_t = none ∨ (none : Tower.elem (ZMod 5)) = none →
          GF25_ring.D.mult GF25_ring.level GF25_t none true = none) ∧
        GF25_ring.D.subtract_in_place GF25_ring.level GF25_2t none = GF25_2t ∧
        GF25_t ≠ none ∧ GF25_2t ≠ none) ∧
      (DRing.subtract_multiple GF25_ring GF25_2t GF25_t none).val = GF25_2t ∧
      (DRing.subtract_multiple GF25_ring GF25_2t GF25_t GF25_2t).val
        = Tower.of_coeffs [4, 2] ∧
      ((GF25_t = none ∨ (none : Tower.elem (ZMod 5)) = none →
          (DRing.subtract_multiple GF25_ring GF25_2t GF25_t none).val = GF25_2t ∧
            (DRing.subtract_multiple GF25_ring GF25_2t GF25_t none).calls = []) ∧
        (GF25_t ≠ none → (none : Tower.elem (ZMod 5)) ≠ none →
          (DRing.subtract_multiple GF25_ring GF25_2t GF25_t none).val
              = GF25_ring.D.subtract_in_place GF25_ring.level GF25_2t
                (GF25_ring.D.mult GF25_ring.level GF25_t none true) ∧
            (DRing.subtract_multiple GF25_ring GF25_2t GF25_t none).calls
              = [DCall.mult, DCall.subtract_in_place]) ∧
        ((GF25_t = none ∨ (none : Tower.elem (ZMod 5)) = none →
            GF25_ring.D.mult GF25_ring.level GF25_t none true = none) →
          GF25_ring.D.subtract_in_place GF25_ring.level GF25_2t none = GF25_2t →
          (DRing.subtract_multiple GF25_ring GF25_2t GF25_t none).val
            = GF25_ring.D.subtract_in_place GF25_ring.level GF25_2t
              (GF25_ring.D.mult GF25_ring.level GF25_t none true))) ∧
      ((DRing.subtract_multiple GF25_ring GF25_2t GF25_t GF25_2t).val
          = GF25_ring.D.subtract_in_place GF25_ring.level GF25_2t
            (GF25_ring.D.mult GF25_ring.level GF25_t GF25_2t true) ∧
        (DRing.subtract_multiple GF25_ring GF25_2t GF25_t GF25_2t).calls
          = [DCall.mult, DCall.subtract_in_place]) :=
  ⟨⟨Or.inr rfl, fun _ => by decide!, by decide, by decide, by decide⟩, by decide, by decide!,
    subtract_multiple_branches GF25_ring GF25_2t GF25_t none,
    (subtract_multiple_branches GF25_ring GF25_2t GF25_t GF25_2t).2.1 (by decide) (by decide)⟩

/-- C14: `DRing::swap(a, b)` exchanges the two elements: afterwards `a` holds the former
`b` and `b` the former `a`; swapping twice restores both; two equal values are left
unchanged; no `DPoly` call is made. -/
theorem swap_exchanges {S : Type} (R : DRing S) (a b : poly S) :
    (DRing.swap R a b).val = (b, a) ∧
      (DRing.swap R (DRing.swap R a b).val.1 (DRing.swap R a b).val.2).val = (a, b) ∧
      (DRing.swap R a a).val = (a, a) ∧
      (DRing.swap R a b).calls = [] :=
  ⟨rfl, rfl, rfl, rfl⟩

end M2
